import Mathlib

/-!
# Verification of the graph-search notebook

Shallow embedding of the search code (`Problem`, `Node`, `romania_map`,
`PathFinder`, `breadth_first_graph_search`, `depth_first_graph_search`,
`uniform_cost_search`, `a_star_search`, and the CPython `heapq` primitives the
priority-queue searches rely on), together with theorems settling the frozen
claims about that code.

Conventions of the embedding:
* Python numbers (ints and floats produced by `path_cost` and the heuristic)
  are modelled by `ℤ`; every concrete number appearing in this development is
  exactly representable, and `math.sqrt` is only ever applied to perfect
  squares, where the float result is exact.
* Python `set` is modelled by `Finset`; `set.remove` of an absent element
  raises `KeyError`, which the step functions surface as a `keyError` result.
* The `while` loops are modelled by fuel-indexed iteration (`none` = fuel ran
  out); termination theorems show enough fuel always exists.
* Python state values are an arbitrary type `α` with decidable equality
  (Python requires hashable states); the concrete road-map instances use
  `String`.
-/

set_option maxRecDepth 100000

namespace SearchSpec

/-- Embedding of the frozen dataclass `Location`: a 2D coordinate attached to a
state, used by the Euclidean-distance heuristic.  The notebook declares the
coordinates as `int`. -/
structure Location where
  x : ℤ
  y : ℤ
deriving DecidableEq

/-- Floor square root of a natural number: one less than the number of
`k ∈ [0, n]` with `k * k ≤ n` (the predicate is downward closed and holds for
`k = 0`, so this is the largest `k` with `k * k ≤ n`).  This formulation
reduces inside the kernel, unlike `Nat.sqrt`. -/
def floorSqrt (n : ℕ) : ℕ :=
  (((List.range (n + 1)).filter fun k => k * k ≤ n).length) - 1

/-- Embedding of `euclidean_distance(loc1, loc2)`, which returns
`math.sqrt((loc1.x - loc2.x)**2 + (loc1.y - loc2.y)**2)`.  Python computes a
float square root; every call made in this development has a perfect-square
radicand, where the float square root is exact, so the integer floor square
root coincides with it.  The `functools.lru_cache` decorator memoizes a pure
function and is semantically transparent. -/
def euclidean_distance (loc1 loc2 : Location) : ℤ :=
  (floorSqrt (((loc1.x - loc2.x) ^ 2 + (loc1.y - loc2.y) ^ 2).toNat) : ℕ)

/-- Embedding of class `Node`: `__init__(self, state, action=None, parent=None,
path_cost=0)` assigns `self.state = state`, `self.cost = path_cost`,
`self.action = action`, `self.parent = parent`.  Note that the constructor
parameter `path_cost` is stored under the attribute name `cost`. -/
inductive Node (α : Type) : Type where
  | mk (state : α) (cost : ℤ) (action : Option α) (parent : Option (Node α)) : Node α

variable {α : Type}

/-- Attribute `state` of a `Node`. -/
def Node.state : Node α → α
  | .mk s _ _ _ => s

/-- Attribute `cost` of a `Node` (holds the `path_cost` constructor argument). -/
def Node.cost : Node α → ℤ
  | .mk _ c _ _ => c

/-- Attribute `action` of a `Node`. -/
def Node.action : Node α → Option α
  | .mk _ _ a _ => a

/-- Attribute `parent` of a `Node`. -/
def Node.parent : Node α → Option (Node α)
  | .mk _ _ _ p => p

/-- Embedding of `Node.path()`: walk parent links collecting nodes, then
reverse, so the root comes first and `self` last. -/
def Node.path : Node α → List (Node α)
  | .mk s c a none => [.mk s c a none]
  | .mk s c a (some p) => p.path ++ [.mk s c a (some p)]

/-- The states along the parent chain, `self` first (an auxiliary observer used
by the proofs; `(n.path.map Node.state).reverse = n.stateChain`). -/
def Node.stateChain : Node α → List α
  | .mk s _ _ none => [s]
  | .mk s _ _ (some p) => s :: p.stateChain

/-- Number of edges on the parent chain of a node (its depth in the search
tree); the root has depth 0. -/
def Node.depth (n : Node α) : ℕ := n.stateChain.length - 1

/-- Embedding of `Node.__lt__(self, other)`: nodes compare by `cost` only.
This is the comparison `heapq` uses. -/
def Node.lt (a b : Node α) : Bool := decide (a.cost < b.cost)

/-- Embedding of class `Problem`.  `actions`, `result`, `goal_test` and
`path_cost` are overridable methods, modelled as fields; `goal` may be absent
(`None`).  The base-class default `goal_test` is `state == self.goal` and the
base-class default `path_cost` is `c + 1`; concrete problems supply their own
fields (see `PathFinder`). -/
structure Problem (α : Type) where
  initial : α
  goal : Option α
  actions : α → List α
  result : α → α → α
  goal_test : α → Bool
  path_cost : ℤ → α → Option α → α → ℤ

/-- Python dict lookup `graph[state1][state2]` for a weighted adjacency list.
Every lookup performed in this development is on a present key; an absent key
(which would raise `KeyError` in Python) is given the dummy weight 0. -/
def assocLookup [DecidableEq α] (l : List (α × ℤ)) (k : α) : ℤ :=
  (((l.find? fun p => decide (p.1 = k)).map Prod.snd).getD 0)

/-- Embedding of class `PathFinder(Problem)` over an adjacency structure
(`graph[state]` is an insertion-ordered dict from neighbor to edge weight,
modelled as an association list):
* `actions(state)` returns `self.graph[state].keys()` (the neighbor states, in
  insertion order);
* `result(state, action)` returns `action`;
* `path_cost(c, state1, action, state2)` returns `c + self.graph[state1][state2]`;
* `goal_test` is inherited from `Problem`: `state == self.goal`. -/
def PathFinder [DecidableEq α] (initial goal : α) (graph : α → List (α × ℤ)) :
    Problem α where
  initial := initial
  goal := some goal
  actions := fun s => (graph s).map Prod.fst
  result := fun _ a => a
  goal_test := fun s => decide (s = goal)
  path_cost := fun c s1 _ s2 => c + assocLookup (graph s1) s2

/-- The dynamic value of one `Node` attribute (Python attributes are
untyped; this sum type records which attribute was read). -/
inductive NodeAttr (α : Type) : Type where
  | state (s : α)
  | cost (c : ℤ)
  | action (a : Option α)
  | parent (p : Option (Node α))

/-- Python attribute lookup on a `Node` instance.  `Node.__init__` assigns
exactly the four attributes `state`, `cost`, `action` and `parent` (the
constructor parameter `path_cost` is stored under the name `cost`); reading
any other attribute name raises `AttributeError`. -/
def Node.lookupAttr (self : Node α) (name : String) : Except String (NodeAttr α) :=
  if name = "state" then .ok (.state self.state)
  else if name = "cost" then .ok (.cost self.cost)
  else if name = "action" then .ok (.action self.action)
  else if name = "parent" then .ok (.parent self.parent)
  else .error ("AttributeError: Node object has no attribute " ++ name)

/-- Embedding of `Node.child_node(self, problem, action)`.  The body first
computes `next_state = problem.result(self.state, action)`, then evaluates the
`Node(...)` call, whose fourth positional argument is
`problem.path_cost(self.path_cost, self.state, action, next_state)`.  Its
first subterm `self.path_cost` is an attribute lookup that raises
`AttributeError` (the accumulated cost is stored under the attribute `cost`,
not `path_cost`), and the exception propagates out of `child_node`, so the
node construction is never reached.  (Had it been reached, the call
`Node(next_state, self, action, ...)` would also have passed `self` into the
`action` slot and `action` into the `parent` slot, since `__init__` declares
the positional order `state, action, parent, path_cost`.) -/
def Node.child_node (self : Node α) (problem : Problem α) (action : α) :
    Except String (Node α) :=
  let _next_state := problem.result self.state action
  match self.lookupAttr "path_cost" with
  | .error e => .error e
  | .ok _ => .error "unreachable: the attribute lookup above always raises"

/-- Embedding of `Node.expand(self, problem)`: build a child via `child_node`
for every action in `problem.actions(self.state)`; the first raised exception
propagates. -/
def Node.expand (self : Node α) (problem : Problem α) :
    Except String (List (Node α)) :=
  (problem.actions self.state).mapM fun action => self.child_node problem action

/-! ## CPython `heapq`

Faithful embedding of `heapq.heappush` and `heapq.heappop` (CPython
`Lib/heapq.py`), operating on a `List (Node α)` viewed as the underlying
Python list (index 0 is the heap root) and comparing elements with
`Node.__lt__`, i.e. by `cost`.  `heapq.heapify` is also called by the source,
but only on a one-element list, where it is the identity (its loop
`for i in reversed(range(n//2))` is empty for `n = 1`).

The index accesses use an explicit fallback element; all callers keep the
indices in range, so the fallback is never read. -/

/-- CPython `heapq._siftdown(heap, startpos, pos)`:  `newitem = heap[pos]` is
moved toward the root, shifting greater parents down, until a parent not
greater than it is found; `newitem` is stored at the final position.  Here
`newitem` is passed explicitly by the callers (it equals `heap[pos]` at
entry).  The loop is embedded with a structural fuel counter; since the
position strictly decreases, `fuel = pos` iterations always suffice, which is
what `siftdownFrom` supplies, so the fuel-exhausted branch (which mirrors the
loop-exit assignment) is never reached. -/
def siftdownFuel (startpos : ℕ) (newitem : Node α) :
    ℕ → List (Node α) → ℕ → List (Node α)
  | 0, heap, pos => heap.set pos newitem
  | fuel + 1, heap, pos =>
    if startpos < pos then
      let parentpos := (pos - 1) / 2
      let parent := heap.getD parentpos newitem
      if newitem.lt parent then
        siftdownFuel startpos newitem fuel (heap.set pos parent) parentpos
      else
        heap.set pos newitem
    else
      heap.set pos newitem

/-- CPython `heapq._siftdown(heap, startpos, pos)` (see `siftdownFuel`). -/
def siftdownFrom (heap : List (Node α)) (startpos : ℕ) (newitem : Node α)
    (pos : ℕ) : List (Node α) :=
  siftdownFuel startpos newitem pos heap pos

/-- CPython `heapq._siftup(heap, pos)` with `endpos = len(heap)` fixed at
entry: the hole at `pos` is filled by the smaller child repeatedly down to a
leaf, `newitem` (which equals `heap[pos]` at entry, passed explicitly) is
placed at the leaf, and `_siftdown` restores the heap property upward.  The
loop is embedded with a structural fuel counter; the position strictly
increases and stays below `endpos`, so `fuel = endpos` iterations always
suffice, which is what `siftupFrom` supplies; the fuel-exhausted branch
mirrors the loop-exit code and is never reached. -/
def siftupFuel (endpos startpos : ℕ) (newitem : Node α) :
    ℕ → List (Node α) → ℕ → List (Node α)
  | 0, heap, pos => siftdownFrom (heap.set pos newitem) startpos newitem pos
  | fuel + 1, heap, pos =>
    let childpos := 2 * pos + 1
    if childpos < endpos then
      let rightpos := childpos + 1
      let childpos2 :=
        if rightpos < endpos ∧
            ¬((heap.getD childpos newitem).lt (heap.getD rightpos newitem) = true)
        then rightpos
        else childpos
      let child := heap.getD childpos2 newitem
      siftupFuel endpos startpos newitem fuel (heap.set pos child) childpos2
    else
      siftdownFrom (heap.set pos newitem) startpos newitem pos

/-- CPython `heapq._siftup(heap, pos)` (see `siftupFuel`). -/
def siftupFrom (heap : List (Node α)) (endpos startpos : ℕ) (newitem : Node α)
    (pos : ℕ) : List (Node α) :=
  siftupFuel endpos startpos newitem endpos heap pos

/-- CPython `heapq.heappush(heap, item)`: append `item`, then sift it down
toward the root from the last position. -/
def heappush (heap : List (Node α)) (item : Node α) : List (Node α) :=
  siftdownFrom (heap ++ [item]) 0 item heap.length

/-- CPython `heapq.heappop(heap)`: pop the last list element; if the heap is
then nonempty, save `heap[0]` as the return value, move the popped last
element to position 0 and sift it up.  Popping an empty heap is `none` (the
search loops never do this: they test `while frontier` first). -/
def heappop (heap : List (Node α)) : Option (Node α × List (Node α)) :=
  match heap.getLast? with
  | none => none
  | some lastelt =>
    let rest := heap.dropLast
    if rest.isEmpty then some (lastelt, [])
    else
      let returnitem := rest.headD lastelt
      let heap2 := rest.set 0 lastelt
      some (returnitem, siftupFrom heap2 heap2.length 0 lastelt 0)

/-! ## The four search loops

Each Python search function owns three pieces of mutable state: `frontier`,
`frontier_states` and `explored`; one loop iteration pops a node, marks it
explored, removes its key from `frontier_states`, tests the goal and otherwise
pushes the eligible neighbors.  We embed one loop iteration as a step function
on a configuration record and the `while` loop as fuel-indexed iteration of
the step. -/

/-- Result of one loop iteration: the function returns a node, the loop ends
with the frontier exhausted (Python then returns `None`), the iteration
finishes normally with a new configuration, or `frontier_states.remove`
raises `KeyError`. -/
inductive StepRes (α C : Type) : Type where
  | found (n : Node α)
  | next (c : C)
  | exhausted
  | keyError

/-- Final result of a whole search call. -/
inductive Outcome (α : Type) : Type where
  | found (n : Node α)
  | nopath
  | keyError

/-- Loop state of `breadth_first_graph_search` / `depth_first_graph_search`:
`frontier` is the deque resp. list (index 0 = Python index 0; both searches
pop with `pop()` from the right end), `frontier_states` and `explored` are
sets of states. -/
structure FifoConfig (α : Type) [DecidableEq α] : Type where
  frontier : List (Node α)
  frontier_states : Finset α
  explored : Finset α

/-- Frontier insertion: BFS uses `frontier.appendleft(node)` (index 0 end),
DFS uses `frontier.append(node)` (right end).  `pushLeft = true` for BFS. -/
def fifoPush (pushLeft : Bool) (n : Node α) (fr : List (Node α)) : List (Node α) :=
  if pushLeft then n :: fr else fr ++ [n]

/-- The body of the BFS/DFS neighbor loop for a single neighbor: if it is in
neither `explored` nor `frontier_states`, build
`Node(state=neighbor, parent=node, action=neighbor,
path_cost=problem.path_cost(node.cost, node.state, None, neighbor))`,
insert it into the frontier and add its state to `frontier_states`.  The
third accumulator component is a ghost trace of the states inserted (not part
of the Python state; used to reason about how often a state is ever
inserted). -/
def fifoConsider [DecidableEq α] (prob : Problem α) (pushLeft : Bool) (node : Node α)
    (explored : Finset α) (acc : List (Node α) × Finset α × List α) (neighbor : α) :
    List (Node α) × Finset α × List α :=
  if neighbor ∉ explored ∧ neighbor ∉ acc.2.1 then
    let neighbor_node : Node α :=
      .mk neighbor (prob.path_cost node.cost node.state none neighbor)
        (some neighbor) (some node)
    (fifoPush pushLeft neighbor_node acc.1, insert neighbor acc.2.1,
      acc.2.2 ++ [neighbor])
  else acc

/-- The neighbor loop of BFS/DFS: fold `fifoConsider` over
`problem.actions(node.state)` in order. -/
def fifoExpand [DecidableEq α] (prob : Problem α) (pushLeft : Bool) (node : Node α)
    (explored : Finset α) (fr0 : List (Node α)) (fs0 : Finset α) :
    List (Node α) × Finset α × List α :=
  (prob.actions node.state).foldl (fifoConsider prob pushLeft node explored) (fr0, fs0, [])

/-- One iteration of the BFS/DFS `while frontier:` loop body:
`node = frontier.pop()`; `explored.add(node.state)`;
`frontier_states.remove(node.state)` (raising `KeyError` if absent);
`if problem.goal_test(node.state): return node`; otherwise run the neighbor
loop. -/
def fifoStep [DecidableEq α] (pushLeft : Bool) (prob : Problem α)
    (c : FifoConfig α) : StepRes α (FifoConfig α) :=
  match c.frontier.getLast? with
  | none => .exhausted
  | some node =>
    let frontier1 := c.frontier.dropLast
    let explored1 := insert node.state c.explored
    if node.state ∈ c.frontier_states then
      let fs1 := c.frontier_states.erase node.state
      if prob.goal_test node.state then .found node
      else
        let r := fifoExpand prob pushLeft node explored1 frontier1 fs1
        .next ⟨r.1, r.2.1, explored1⟩
    else .keyError

/-- Fuel-indexed iteration of `fifoStep` (`none` = fuel exhausted before the
loop finished). -/
def fifoRun [DecidableEq α] (pushLeft : Bool) (prob : Problem α) :
    ℕ → FifoConfig α → Option (Outcome α)
  | 0, _ => none
  | fuel + 1, c =>
    match fifoStep pushLeft prob c with
    | .found n => some (.found n)
    | .exhausted => some .nopath
    | .keyError => some .keyError
    | .next c2 => fifoRun pushLeft prob fuel c2

/-- Initial configuration of BFS/DFS: `frontier = [Node(problem.initial)]`,
`frontier_states = set([problem.initial])`, `explored = set()`. -/
def fifoInit [DecidableEq α] (prob : Problem α) : FifoConfig α :=
  ⟨[.mk prob.initial 0 none none], {prob.initial}, ∅⟩

/-- Embedding of `breadth_first_graph_search(problem)` (with fuel). -/
def breadth_first_graph_search [DecidableEq α] (prob : Problem α) (fuel : ℕ) :
    Option (Outcome α) :=
  fifoRun true prob fuel (fifoInit prob)

/-- Embedding of `depth_first_graph_search(problem)` (with fuel). -/
def depth_first_graph_search [DecidableEq α] (prob : Problem α) (fuel : ℕ) :
    Option (Outcome α) :=
  fifoRun false prob fuel (fifoInit prob)

/-- Loop state of `uniform_cost_search` / `a_star_search`: the frontier is a
`heapq` min-heap of nodes, and `frontier_states` is a set of
`(state, cost)` pairs. -/
structure PQConfig (α : Type) [DecidableEq α] : Type where
  frontier : List (Node α)
  frontier_states : Finset (α × ℤ)
  explored : Finset α

/-- Python equality between a bare state value and a `(state, cost)` 2-tuple:
a state (e.g. a string) never compares equal to a tuple, so this is `false`
for every pair. -/
def pyStateEqPair (_s : α) (_p : α × ℤ) : Bool := false

/-- The membership test `neighbor in frontier_states` as executed by
`uniform_cost_search` and `a_star_search`: `neighbor` is a bare state while
`frontier_states` holds `(state, cost)` tuples, so each elementwise Python
equality is `pyStateEqPair` and the test never succeeds. -/
def stateMemPairSet [DecidableEq α] (s : α) (fs : Finset (α × ℤ)) : Bool :=
  decide (∃ p ∈ fs, pyStateEqPair s p = true)

/-- The body of the UCS/A* neighbor loop for a single neighbor: if `neighbor
not in explored and neighbor not in frontier_states` (the second test is
`stateMemPairSet`, a bare state against a set of pairs), compute `cost` (the
priority; `costF` abstracts the UCS and A* variants), build
`Node(state=neighbor, parent=node, action=neighbor, path_cost=cost)`,
`heappush` it and add `(neighbor, cost)` to `frontier_states`.  The third
accumulator component is a ghost trace of the pairs added. -/
def pqConsider [DecidableEq α] (costF : Node α → α → ℤ)
    (node : Node α) (explored : Finset α)
    (acc : List (Node α) × Finset (α × ℤ) × List (α × ℤ)) (neighbor : α) :
    List (Node α) × Finset (α × ℤ) × List (α × ℤ) :=
  if neighbor ∉ explored ∧ stateMemPairSet neighbor acc.2.1 = false then
    let cost := costF node neighbor
    let neighbor_node : Node α := .mk neighbor cost (some neighbor) (some node)
    (heappush acc.1 neighbor_node, insert (neighbor, cost) acc.2.1,
      acc.2.2 ++ [(neighbor, cost)])
  else acc

/-- The neighbor loop of UCS/A*: fold `pqConsider` over
`problem.actions(node.state)` in order. -/
def pqExpand [DecidableEq α] (prob : Problem α) (costF : Node α → α → ℤ)
    (node : Node α) (explored : Finset α) (fr0 : List (Node α))
    (fs0 : Finset (α × ℤ)) :
    List (Node α) × Finset (α × ℤ) × List (α × ℤ) :=
  (prob.actions node.state).foldl (pqConsider costF node explored) (fr0, fs0, [])

/-- One iteration of the UCS/A* loop body: `node = heapq.heappop(frontier)`;
`explored.add(node.state)`; `frontier_states.remove((node.state, node.cost))`
(raising `KeyError` if the pair is absent); goal test; otherwise the neighbor
loop. -/
def pqStep [DecidableEq α] (prob : Problem α) (costF : Node α → α → ℤ)
    (c : PQConfig α) : StepRes α (PQConfig α) :=
  match heappop c.frontier with
  | none => .exhausted
  | some (node, frontier1) =>
    let explored1 := insert node.state c.explored
    if (node.state, node.cost) ∈ c.frontier_states then
      let fs1 := c.frontier_states.erase (node.state, node.cost)
      if prob.goal_test node.state then .found node
      else
        let r := pqExpand prob costF node explored1 frontier1 fs1
        .next ⟨r.1, r.2.1, explored1⟩
    else .keyError

/-- Fuel-indexed iteration of `pqStep`. -/
def pqRun [DecidableEq α] (prob : Problem α) (costF : Node α → α → ℤ) :
    ℕ → PQConfig α → Option (Outcome α)
  | 0, _ => none
  | fuel + 1, c =>
    match pqStep prob costF c with
    | .found n => some (.found n)
    | .exhausted => some .nopath
    | .keyError => some .keyError
    | .next c2 => pqRun prob costF fuel c2

/-- Initial configuration of UCS/A*: `frontier = [Node(problem.initial)]`
(`heapq.heapify` of a one-element list is the identity),
`frontier_states = set([(problem.initial, 0)])`, `explored = set()`. -/
def pqInit [DecidableEq α] (prob : Problem α) : PQConfig α :=
  ⟨[.mk prob.initial 0 none none], {(prob.initial, 0)}, ∅⟩

/-- The priority computed by `uniform_cost_search` for a neighbor:
`cost = problem.path_cost(node.cost, node.state, None, neighbor)`. -/
def ucsCost [DecidableEq α] (prob : Problem α) (node : Node α) (neighbor : α) : ℤ :=
  prob.path_cost node.cost node.state none neighbor

/-- Embedding of `uniform_cost_search(problem)` (with fuel). -/
def uniform_cost_search [DecidableEq α] (prob : Problem α) (fuel : ℕ) :
    Option (Outcome α) :=
  pqRun prob (ucsCost prob) fuel (pqInit prob)

/-- The priority computed by `a_star_search` for a neighbor:
`cost = problem.path_cost(node.cost, node.state, None, neighbor)
      + euclidean_distance(locations[neighbor], locations[problem.goal])`.
Note that the first summand starts from `node.cost`, which is the stored
priority of the parent node.  `locations[problem.goal]` assumes the problem
carries a goal with a location (true of every use in the notebook); a goal of
`None` is given an arbitrary location here, which no theorem relies on. -/
def astarCost [DecidableEq α] (prob : Problem α) (locations : α → Location)
    (node : Node α) (neighbor : α) : ℤ :=
  prob.path_cost node.cost node.state none neighbor +
    euclidean_distance (locations neighbor)
      (match prob.goal with
        | some g => locations g
        | none => ⟨0, 0⟩)

/-- Embedding of `a_star_search(problem)` (with fuel); the notebook reads the
coordinate table `locations` from the enclosing scope, modelled as an
explicit argument. -/
def a_star_search [DecidableEq α] (prob : Problem α) (locations : α → Location)
    (fuel : ℕ) : Option (Outcome α) :=
  pqRun prob (astarCost prob locations) fuel (pqInit prob)

/-! ## Concrete data from the notebook -/

/-- Embedding of the dict `romania_map` (insertion order preserved). -/
def romania_map : String → List (String × ℤ)
  | "Arad" => [("Zerind", 75), ("Sibiu", 140), ("Timisoara", 118)]
  | "Zerind" => [("Arad", 75), ("Oradea", 71)]
  | "Sibiu" => [("Arad", 140), ("Fagaras", 99), ("Oradea", 151), ("Rimnicu", 80)]
  | "Timisoara" => [("Arad", 118), ("Lugoj", 111)]
  | "Bucharest" => [("Urziceni", 85), ("Pitesti", 101), ("Giurgiu", 90), ("Fagaras", 211)]
  | "Urziceni" => [("Bucharest", 85), ("Hirsova", 98), ("Vaslui", 142)]
  | "Pitesti" => [("Bucharest", 101), ("Craiova", 138), ("Rimnicu", 97)]
  | "Giurgiu" => [("Bucharest", 90)]
  | "Fagaras" => [("Bucharest", 211), ("Sibiu", 99)]
  | "Craiova" => [("Drobeta", 120), ("Rimnicu", 146), ("Pitesti", 138)]
  | "Drobeta" => [("Craiova", 120), ("Mehadia", 75)]
  | "Rimnicu" => [("Craiova", 146), ("Pitesti", 97), ("Sibiu", 80)]
  | "Mehadia" => [("Drobeta", 75), ("Lugoj", 70)]
  | "Eforie" => [("Hirsova", 86)]
  | "Hirsova" => [("Eforie", 86), ("Urziceni", 98)]
  | "Iasi" => [("Vaslui", 92), ("Neamt", 87)]
  | "Vaslui" => [("Iasi", 92), ("Urziceni", 142)]
  | "Neamt" => [("Iasi", 87)]
  | "Lugoj" => [("Timisoara", 111), ("Mehadia", 70)]
  | "Oradea" => [("Zerind", 71), ("Sibiu", 151)]
  | _ => []

/-- The worked problem instance of the notebook:
`PathFinder("Arad", "Bucharest", romania_map)`. -/
def romania_problem : Problem String := PathFinder "Arad" "Bucharest" romania_map

/-- Observer: the state sequence of the returned path (root first), or `[]`
when the search did not return a node. -/
def outcomeStates : Option (Outcome α) → List α
  | some (.found n) => n.path.map Node.state
  | _ => []

/-- Observer: the stored `cost` attribute of the returned node, or `0` when
the search did not return a node. -/
def outcomeCost : Option (Outcome α) → ℤ
  | some (.found n) => n.cost
  | _ => 0

/-- Observer: sum of the edge weights of a state sequence in a weighted
graph (the true accumulated path cost of a route, independent of the `cost`
attribute stored in the nodes). -/
def routeWeight [DecidableEq α] (graph : α → List (α × ℤ)) : List α → ℤ
  | s :: t :: r => assocLookup (graph s) t + routeWeight graph (t :: r)
  | _ => 0

/-- Observer: `true` exactly when the search call raised `KeyError`. -/
def outcomeIsKeyError : Option (Outcome α) → Bool
  | some .keyError => true
  | _ => false

/-- Observer: `true` exactly when the search call returned a node. -/
def outcomeIsFound : Option (Outcome α) → Bool
  | some (.found _) => true
  | _ => false

/-- Observer: `true` exactly when the search call returned the not-found
value `None`. -/
def outcomeIsNoPath : Option (Outcome α) → Bool
  | some .nopath => true
  | _ => false

/-- The UCS/A* configuration after `k` completed loop iterations (`none` once
the loop has returned or raised within the first `k` iterations). -/
def pqIter [DecidableEq α] (prob : Problem α) (costF : Node α → α → ℤ) :
    ℕ → PQConfig α → Option (PQConfig α)
  | 0, c => some c
  | k + 1, c =>
    match pqStep prob costF c with
    | .next c2 => pqIter prob costF k c2
    | _ => none

/-- Observer: `frontier_states` of an optional configuration. -/
def optFS [DecidableEq α] : Option (PQConfig α) → Finset (α × ℤ)
  | some c => c.frontier_states
  | none => ∅

/-- Observer: `frontier` of an optional configuration. -/
def optFrontier [DecidableEq α] : Option (PQConfig α) → List (Node α)
  | some c => c.frontier
  | none => []

/-! ## Concrete instances used to settle the claims

Besides the notebook's own Romania instance, the claims are settled on three
small `PathFinder` instances (all of the same shape as the notebook's worked
example: a weighted digraph given as an insertion-ordered adjacency dict). -/

/-- A three-state line `A --1--> B --1--> G`, with 2D locations placed so
that every straight-line distance to the goal `G` is an exact integer
(`math.sqrt` of a perfect square is exact):  `A = (6,8)`, `B = (3,4)`,
`G = (0,0)`, so the heuristic values are 10, 5 and 0. -/
def line_graph : String → List (String × ℤ)
  | "A" => [("B", 1)]
  | "B" => [("G", 1)]
  | _ => []

/-- Locations for `line_graph` (see there). -/
def line_locations : String → Location
  | "A" => ⟨6, 8⟩
  | "B" => ⟨3, 4⟩
  | _ => ⟨0, 0⟩

/-- `PathFinder("A", "G", line_graph)`. -/
def line_problem : Problem String := PathFinder "A" "G" line_graph

/-- A four-state diamond with two routes from `A` to the goal `G`:
`A --2--> B --2--> G` (total 4, the optimum) and `A --4--> C --1--> G`
(total 5).  Locations `A = (0,4)`, `B = (0,2)`, `C = G = (0,0)` make the
straight-line heuristic `h(A) = 4`, `h(B) = 2`, `h(C) = h(G) = 0`: every
value is an exact integer, the heuristic is admissible (`h(A) = 4 ≤ 4`,
`h(B) = 2 ≤ 2`, `h(C) = 0 ≤ 1`) and consistent (every edge satisfies
`h(u) ≤ w(u,v) + h(v)`, and every edge weight is at least the straight-line
distance between its endpoints). -/
def diamond_graph : String → List (String × ℤ)
  | "A" => [("B", 2), ("C", 4)]
  | "B" => [("G", 2)]
  | "C" => [("G", 1)]
  | _ => []

/-- Locations for `diamond_graph` (see there). -/
def diamond_locations : String → Location
  | "A" => ⟨0, 4⟩
  | "B" => ⟨0, 2⟩
  | _ => ⟨0, 0⟩

/-- `PathFinder("A", "G", diamond_graph)`. -/
def diamond_problem : Problem String := PathFinder "A" "G" diamond_graph

/-- The heuristic value used by `a_star_search` on the diamond instance. -/
def diamond_h (s : String) : ℤ :=
  euclidean_distance (diamond_locations s) (diamond_locations "G")

/-- A five-state graph on which the state `X` is generated twice with equal
cost: `A --1--> B --1--> X` and `A --1--> C --1--> X`, then `X --1--> D`.
Both `X`-nodes carry the pair `(X, 2)`. -/
def dup_graph : String → List (String × ℤ)
  | "A" => [("B", 1), ("C", 1)]
  | "B" => [("X", 1)]
  | "C" => [("X", 1)]
  | "X" => [("D", 1)]
  | _ => []

/-- `PathFinder("A", "D", dup_graph)`: the goal `D` is reachable. -/
def dup_problem : Problem String := PathFinder "A" "D" dup_graph

/-- `PathFinder("A", "Z", dup_graph)`: the goal `Z` does not occur in the
graph, so no reachable state passes the goal test. -/
def dup_problem_nogoal : Problem String := PathFinder "A" "Z" dup_graph

/-- The five states reachable in `dup_graph`, a closed universe for both
`dup_problem` variants. -/
def dup_states : List String := ["A", "B", "C", "X", "D"]

/-! ## Definitions used by the general theorems -/

/-- `IsPathFrom prob s l`: starting at `s`, the state list `l` follows
successor edges of the search graph (the searches read
`problem.actions(state)` as the list of successor states). -/
def IsPathFrom (prob : Problem α) : α → List α → Prop
  | _, [] => True
  | s, t :: r => t ∈ prob.actions s ∧ IsPathFrom prob t r

/-- Last state of the route `s :: l`. -/
def endOf (s : α) (l : List α) : α := l.getLastD s

/-- `S` is a finite universe containing the initial state and closed under
the successor relation; every reachable state lies in `S`.  This is the
"finitely many reachable states, finite action sets" hypothesis of the
claims. -/
def ClosedUniverse (prob : Problem α) (S : Finset α) : Prop :=
  prob.initial ∈ S ∧ ∀ s ∈ S, ∀ t ∈ prob.actions s, t ∈ S

/-- Non-negative step costs, as the claims require: `path_cost` never
decreases the accumulated cost. -/
def NonnegSteps (prob : Problem α) : Prop :=
  ∀ (c : ℤ) (s1 : α) (a : Option α) (s2 : α), c ≤ prob.path_cost c s1 a s2

/-- All steps have the same cost (hypothesis of the BFS-optimality claim). -/
def UniformSteps (prob : Problem α) : Prop :=
  ∃ k : ℤ, ∀ (c : ℤ) (s1 : α) (a : Option α) (s2 : α),
    prob.path_cost c s1 a s2 = c + k

/-- `t` can be reached from the initial state by a successor path with `m`
edges. -/
def Reaches (prob : Problem α) (t : α) (m : ℕ) : Prop :=
  ∃ l, IsPathFrom prob prob.initial l ∧ l.length = m ∧ endOf prob.initial l = t

/-- Edge-count distance from the initial state (`sInf` of the reachable edge
counts; meaningful only for reachable `t`). -/
noncomputable def bfsDist (prob : Problem α) (t : α) : ℕ :=
  sInf (setOf fun m => Reaches prob t m)

/-- The parent chain of a node, read from the root, is an actual successor
path starting at the initial state. -/
def Node.routeOK (prob : Problem α) (n : Node α) : Prop :=
  ∃ l, n.stateChain.reverse = prob.initial :: l ∧ IsPathFrom prob prob.initial l

/-- The ghost trace of states inserted into the frontier by one BFS/DFS loop
iteration (the third component of `fifoExpand`; empty when the iteration
returns, raises, or exhausts). -/
def fifoStepPushed [DecidableEq α] (pushLeft : Bool) (prob : Problem α)
    (c : FifoConfig α) : List α :=
  match c.frontier.getLast? with
  | none => []
  | some node =>
    let explored1 := insert node.state c.explored
    if node.state ∈ c.frontier_states then
      if prob.goal_test node.state then []
      else
        (fifoExpand prob pushLeft node explored1 c.frontier.dropLast
          (c.frontier_states.erase node.state)).2.2
    else []

/-- Configurations reachable by the BFS/DFS loop, together with the ghost
multiset of all states ever inserted into the frontier (the root state
counts as inserted by the initialisation). -/
inductive FifoReach [DecidableEq α] (pushLeft : Bool) (prob : Problem α) :
    FifoConfig α → Multiset α → Prop where
  | init : FifoReach pushLeft prob (fifoInit prob) {prob.initial}
  | step {c M c2} : FifoReach pushLeft prob c M →
      fifoStep pushLeft prob c = .next c2 →
      FifoReach pushLeft prob c2 (M + Multiset.ofList (fifoStepPushed pushLeft prob c))

/-- Configurations reachable by the UCS/A* loop. -/
inductive PqReach [DecidableEq α] (prob : Problem α) (costF : Node α → α → ℤ) :
    PQConfig α → Prop where
  | init : PqReach prob costF (pqInit prob)
  | step {c c2} : PqReach prob costF c → pqStep prob costF c = .next c2 →
      PqReach prob costF c2

/-- The `(state, cost)` key of a node, as used by `frontier_states`. -/
def Node.pairKey (n : Node α) : α × ℤ := (n.state, n.cost)

/-- No two nodes currently on the heap share a `(state, cost)` key. -/
def PairsNodup [DecidableEq α] (c : PQConfig α) : Prop :=
  (c.frontier.map Node.pairKey).Nodup

/-- Loop invariant of BFS/DFS claimed by C9: distinct frontier states,
`frontier_states` mirrors the frontier exactly, and is disjoint from
`explored`. -/
def FifoInv [DecidableEq α] (c : FifoConfig α) : Prop :=
  (c.frontier.map Node.state).Nodup ∧
  c.frontier_states = (c.frontier.map Node.state).toFinset ∧
  Disjoint c.frontier_states c.explored

/-- S-relative invariant of BFS/DFS: all states mentioned by the
configuration lie in the closed universe `S`. -/
def FifoSInv [DecidableEq α] (S : Finset α) (c : FifoConfig α) : Prop :=
  (∀ n ∈ c.frontier, n.state ∈ S) ∧ c.frontier_states ⊆ S ∧ c.explored ⊆ S

/-- Termination measure of the BFS/DFS loop relative to a closed universe
`S`: twice the number of undiscovered states plus the frontier length.  Each
iteration pops one node and each insertion trades one undiscovered state for
one frontier entry, so the measure strictly decreases. -/
def fifoMeasure [DecidableEq α] (S : Finset α) (c : FifoConfig α) : ℕ :=
  2 * (S \ (c.explored ∪ c.frontier_states)).card + c.frontier.length

/-- Discovery invariant shared by the searches: the initial state has been
discovered, every explored state has all successors discovered, and no
explored state passes the goal test. -/
def DiscInv [DecidableEq α] (prob : Problem α) (c : FifoConfig α) : Prop :=
  (prob.initial ∈ c.explored ∨ prob.initial ∈ c.frontier_states) ∧
  (∀ s ∈ c.explored, ∀ t ∈ prob.actions s, t ∈ c.explored ∨ t ∈ c.frontier_states) ∧
  (∀ s ∈ c.explored, prob.goal_test s = false)

/-- BFS level invariant (used for the shortest-path claim): every frontier
node carries a genuine initial-rooted route whose edge count equals the true
edge-count distance of its state, and the frontier depths, read from the
newest (left) end to the oldest (right, next-popped) end, are `b` copies of
`d+1` followed by `a` copies of `d`. -/
def BfsLevels [DecidableEq α] (prob : Problem α) (c : FifoConfig α) : Prop :=
  (∀ n ∈ c.frontier, Node.routeOK prob n ∧ bfsDist prob n.state = n.depth) ∧
  ∃ d a b, c.frontier.map Node.depth = List.replicate b (d + 1) ++ List.replicate a d

/-- Well-formedness of one heap node relative to the universe `S` and the
explored set: its parent chain repeats no state, stays inside `S`, and all
strict ancestors are explored. -/
def PqNodeOK [DecidableEq α] (S : Finset α) (explored : Finset α) (n : Node α) : Prop :=
  n.stateChain.Nodup ∧ (∀ s ∈ n.stateChain, s ∈ S) ∧
    (∀ s ∈ n.stateChain.tail, s ∈ explored)

/-- S-relative invariant of UCS/A*: every heap node is well-formed. -/
def PqSInv [DecidableEq α] (S : Finset α) (c : PQConfig α) : Prop :=
  ∀ n ∈ c.frontier, PqNodeOK S c.explored n

/-- Key-set invariant of UCS/A*: `frontier_states` is exactly the set of
`(state, cost)` keys of the heap nodes. -/
def PqKeyInv [DecidableEq α] (c : PQConfig α) : Prop :=
  c.frontier_states = (c.frontier.map Node.pairKey).toFinset

/-- An upper bound on the branching factor inside `S`. -/
def branchBound [DecidableEq α] (prob : Problem α) (S : Finset α) : ℕ :=
  S.sup fun s => (prob.actions s).length

/-- Weight of a heap node for the UCS/A* termination measure: `(B+1)` raised
to the number of states of `S` not yet on the node's chain.  A popped node of
chain length `k` is traded for at most `B` children of chain length `k+1`,
so the total strictly decreases. -/
def nodeWeight (Bp Sc : ℕ) (n : Node α) : ℕ := (Bp + 1) ^ (Sc - n.stateChain.length)

/-- Termination measure of the UCS/A* loop: total weight of the heap. -/
def pqMeasure (Bp Sc : ℕ) (fr : List (Node α)) : ℕ :=
  (fr.map (nodeWeight Bp Sc)).sum

/-- A minimal concrete problem (one state, no actions, no goal) used to
instantiate hypotheses of the general theorems at a checkable input. -/
def trivial_problem : Problem String where
  initial := "A"
  goal := none
  actions := fun _ => []
  result := fun s _ => s
  goal_test := fun _ => false
  path_cost := fun c _ _ _ => c + 1

/-- The configuration of UCS on `trivial_problem` after one iteration. -/
def trivial_pq1 : PQConfig String := ⟨[], ∅, {"A"}⟩

/-- The configuration of BFS/DFS on `trivial_problem` after one iteration. -/
def trivial_fifo1 : FifoConfig String := ⟨[], ∅, {"A"}⟩

/-- A two-state solvable problem `A → G` whose `path_cost` is the `Problem`
class default `cost + 1` (so every step has the same cost 1 whatever the
states), used as the concrete instance of the BFS-optimality theorem. -/
def unit_problem : Problem String where
  initial := "A"
  goal := some "G"
  actions := fun s => if s = "A" then ["G"] else []
  result := fun _ a => a
  goal_test := fun s => decide (s = "G")
  path_cost := fun c _ _ _ => c + 1

/-- The (closed) state universe of `unit_problem`. -/
def unitS : Finset String := {"A", "G"}

/-! # Theorems -/

/-! ## Heap permutation lemmas

The sift loops of `heapq` permute the underlying list: each run of
`_siftdown`/`_siftup` rotates a chain of entries and finally stores `newitem`.
Viewed as multisets, the result of either sift equals the input list with
`newitem` stored at the entry position, which gives the two facts the
invariant proofs need: `heappush` adds exactly its item, and `heappop`
removes exactly the returned item. -/

theorem coe_set_eq_cons_eraseIdx {X : Type} (l : List X) (i : ℕ) (a : X)
    (h : i < l.length) :
    ((l.set i a : List X) : Multiset X) = a ::ₘ ((l.eraseIdx i : List X) : Multiset X) := by
  rw [Multiset.cons_coe, Multiset.coe_eq_coe, List.set_eq_take_cons_drop _ h,
    List.eraseIdx_eq_take_drop_succ]
  exact List.perm_middle

theorem coe_eq_get_cons_eraseIdx {X : Type} (l : List X) (i : ℕ) (h : i < l.length) :
    (l : Multiset X) = l.get ⟨i, h⟩ ::ₘ ((l.eraseIdx i : List X) : Multiset X) := by
  have hd : l.get ⟨i, h⟩ :: l.drop (i + 1) = l.drop i := List.get_cons_drop l ⟨i, h⟩
  conv_lhs => rw [← List.take_append_drop i l, ← hd]
  rw [Multiset.cons_coe, Multiset.coe_eq_coe, List.eraseIdx_eq_take_drop_succ]
  exact List.perm_middle

theorem coe_set_set_swap {X : Type} (l : List X) (pos ppos : ℕ) (ni : X)
    (hpos : pos < l.length) (hppos : ppos < l.length) (hne : ppos ≠ pos) :
    (((l.set pos (l.get ⟨ppos, hppos⟩)).set ppos ni : List X) : Multiset X) =
      ((l.set pos ni : List X) : Multiset X) := by
  have hlen : ppos < (l.set pos (l.get ⟨ppos, hppos⟩)).length := by
    simpa using hppos
  have hget : (l.set pos (l.get ⟨ppos, hppos⟩)).get ⟨ppos, hlen⟩ = l.get ⟨ppos, hppos⟩ := by
    simp [List.get_eq_getElem, List.getElem_set_ne (fun hh => hne hh.symm)]
  have h1 := coe_set_eq_cons_eraseIdx (l.set pos (l.get ⟨ppos, hppos⟩)) ppos ni hlen
  have h2 := coe_eq_get_cons_eraseIdx (l.set pos (l.get ⟨ppos, hppos⟩)) ppos hlen
  have h3 := coe_set_eq_cons_eraseIdx l pos (l.get ⟨ppos, hppos⟩) hpos
  rw [hget] at h2
  have h4 : (((l.set pos (l.get ⟨ppos, hppos⟩)).eraseIdx ppos : List X) : Multiset X) =
      ((l.eraseIdx pos : List X) : Multiset X) :=
    (Multiset.cons_inj_right _).mp (h2.symm.trans h3)
  rw [h1, h4, ← coe_set_eq_cons_eraseIdx l pos ni hpos]

theorem siftdownFuel_coe (startpos : ℕ) (ni : Node α) :
    ∀ (fuel : ℕ) (heap : List (Node α)) (pos : ℕ), pos < heap.length →
      ((siftdownFuel startpos ni fuel heap pos : List (Node α)) : Multiset (Node α)) =
        ((heap.set pos ni : List (Node α)) : Multiset (Node α))
  | 0, heap, pos, _h => rfl
  | fuel + 1, heap, pos, h => by
    rw [siftdownFuel]
    by_cases h1 : startpos < pos
    · simp only [h1, if_true]
      by_cases h2 : ni.lt (heap.getD ((pos - 1) / 2) ni) = true
      · simp only [h2, if_true]
        have hpp : (pos - 1) / 2 < pos := by omega
        have hpl : (pos - 1) / 2 < heap.length := by omega
        have hrec := siftdownFuel_coe startpos ni fuel
          (heap.set pos (heap.getD ((pos - 1) / 2) ni)) ((pos - 1) / 2)
          (by simpa using hpl)
        rw [hrec, List.getD_eq_get heap ni hpl]
        exact coe_set_set_swap heap pos ((pos - 1) / 2) ni h hpl (Nat.ne_of_lt hpp)
      · rw [if_neg h2]
    · simp [h1]

theorem siftupFuel_coe (endpos startpos : ℕ) (ni : Node α) :
    ∀ (fuel : ℕ) (heap : List (Node α)) (pos : ℕ), pos < heap.length →
      endpos ≤ heap.length →
      ((siftupFuel endpos startpos ni fuel heap pos : List (Node α)) : Multiset (Node α)) =
        ((heap.set pos ni : List (Node α)) : Multiset (Node α))
  | 0, heap, pos, h, _he => by
    rw [siftupFuel, siftdownFrom,
      siftdownFuel_coe startpos ni pos (heap.set pos ni) pos (by simpa using h),
      List.set_set]
  | fuel + 1, heap, pos, h, he => by
    rw [siftupFuel]
    by_cases h1 : 2 * pos + 1 < endpos
    · simp only [h1, if_true]
      have key : ∀ cp : ℕ, pos < cp → cp < endpos →
          ((siftupFuel endpos startpos ni fuel (heap.set pos (heap.getD cp ni)) cp :
              List (Node α)) : Multiset (Node α)) =
            ((heap.set pos ni : List (Node α)) : Multiset (Node α)) := by
        intro cp hcp1 hcp2
        have hcl : cp < heap.length := lt_of_lt_of_le hcp2 he
        have hrec := siftupFuel_coe endpos startpos ni fuel
          (heap.set pos (heap.getD cp ni)) cp (by simpa using hcl) (by simpa using he)
        rw [hrec, List.getD_eq_get heap ni hcl]
        exact coe_set_set_swap heap pos cp ni h hcl (Nat.ne_of_gt hcp1)
      by_cases h2 : 2 * pos + 1 + 1 < endpos ∧
          ¬((heap.getD (2 * pos + 1) ni).lt (heap.getD (2 * pos + 1 + 1) ni) = true)
      · simp only [h2, if_true]
        exact key (2 * pos + 1 + 1) (by omega) h2.1
      · simp only [h2, if_false]
        exact key (2 * pos + 1) (by omega) h1
    · simp only [h1, if_false]
      rw [siftdownFrom]
      rw [siftdownFuel_coe startpos ni pos (heap.set pos ni) pos (by simpa using h),
        List.set_set]

/-- `heappush` adds exactly its item to the heap, as a multiset. -/
theorem heappush_coe (heap : List (Node α)) (item : Node α) :
    ((heappush heap item : List (Node α)) : Multiset (Node α)) =
      item ::ₘ (heap : Multiset (Node α)) := by
  rw [heappush, siftdownFrom,
    siftdownFuel_coe 0 item heap.length (heap ++ [item]) heap.length (by simp)]
  have hset : (heap ++ [item]).set heap.length item = heap ++ [item] := by
    rw [List.set_append_right _ _ (Nat.le_refl _), Nat.sub_self]
    rfl
  rw [hset, ← Multiset.coe_add, Multiset.coe_singleton, add_comm,
    Multiset.singleton_add]

/-- `heappop` removes exactly the returned item from the heap, as a
multiset. -/
theorem heappop_coe (heap : List (Node α)) (r : Node α) (rest : List (Node α))
    (h : heappop heap = some (r, rest)) :
    (heap : Multiset (Node α)) = r ::ₘ (rest : Multiset (Node α)) := by
  rw [heappop] at h
  cases hl : heap.getLast? with
  | none => rw [hl] at h; exact absurd h (by simp)
  | some lastelt =>
    rw [hl] at h
    have hne : heap ≠ [] := by
      intro hh
      rw [hh] at hl
      exact absurd hl (by simp)
    have hsplit : heap.dropLast ++ [lastelt] = heap :=
      List.dropLast_append_getLast? lastelt hl
    by_cases he : heap.dropLast.isEmpty
    · simp only [he, if_true] at h
      have h1 : r = lastelt ∧ rest = [] := by
        constructor
        · exact (congrArg (fun x => (Option.getD (Option.map Prod.fst x) r)) h).symm.trans rfl
        · exact (congrArg (fun x => (Option.getD (Option.map Prod.snd x) rest)) h).symm.trans rfl
      obtain ⟨hr, hrest⟩ := h1
      have hnil : heap.dropLast = [] := List.isEmpty_iff.mp he
      rw [hnil] at hsplit
      rw [← hsplit, hr, hrest]
      rfl
    · simp only [he, if_false] at h
      have hnnil : heap.dropLast ≠ [] := fun hh => by simp [hh] at he
      obtain ⟨hd, tl, hcons⟩ := List.exists_cons_of_ne_nil hnnil
      have hr : r = heap.dropLast.headD lastelt := by
        have := congrArg (fun x => (Option.getD (Option.map Prod.fst x) r)) h
        simpa using this.symm
      have hrest : rest = siftupFrom (heap.dropLast.set 0 lastelt)
          (heap.dropLast.set 0 lastelt).length 0 lastelt 0 := by
        have := congrArg (fun x => (Option.getD (Option.map Prod.snd x) rest)) h
        simpa using this.symm
      have hlen : 0 < (heap.dropLast.set 0 lastelt).length := by
        rw [hcons]; simp
      have hcoe : ((rest : List (Node α)) : Multiset (Node α)) =
          ((heap.dropLast.set 0 lastelt : List (Node α)) : Multiset (Node α)) := by
        rw [hrest, siftupFrom]
        rw [siftupFuel_coe _ 0 lastelt _ _ 0 hlen (Nat.le_refl _), List.set_set]
      rw [hcons] at hcoe
      have hcoe2 : ((rest : List (Node α)) : Multiset (Node α)) =
          ((lastelt :: tl : List (Node α)) : Multiset (Node α)) := hcoe
      rw [hr]
      conv_lhs => rw [← hsplit, hcons]
      rw [hcons, List.headD_cons, hcoe2]
      rw [List.cons_append, ← Multiset.cons_coe, ← Multiset.cons_coe,
        ← Multiset.coe_add, Multiset.coe_singleton, add_comm, Multiset.singleton_add]

/-- A nonempty heap pops successfully. -/
theorem heappop_isSome (heap : List (Node α)) (h : heap ≠ []) :
    ∃ r rest, heappop heap = some (r, rest) := by
  simp only [heappop]
  cases hl : heap.getLast? with
  | none => exact absurd (List.getLast?_eq_none_iff.mp hl) h
  | some lastelt =>
    by_cases he : heap.dropLast.isEmpty
    · exact ⟨lastelt, [], by simp [he]⟩
    · exact ⟨heap.dropLast.headD lastelt,
        siftupFrom (heap.dropLast.set 0 lastelt) (heap.dropLast.set 0 lastelt).length
          0 lastelt 0, by simp [he]⟩

/-- The empty heap pops `none`. -/
theorem heappop_nil : heappop ([] : List (Node α)) = none := rfl

/-- The membership test `neighbor in frontier_states` of UCS/A* compares a
bare state with `(state, cost)` tuples and therefore never succeeds. -/
theorem stateMemPairSet_false [DecidableEq α] (s : α) (fs : Finset (α × ℤ)) :
    stateMemPairSet s fs = false := by
  simp [stateMemPairSet, pyStateEqPair]

/-! ## Generic fold and step-inversion lemmas -/

theorem foldl_preserves {β γ : Type} (f : γ → β → γ) (P : γ → Prop)
    (hstep : ∀ acc b, P acc → P (f acc b)) :
    ∀ (ts : List β) (acc : γ), P acc → P (ts.foldl f acc)
  | [], _, h0 => h0
  | t :: ts, acc, h0 =>
    foldl_preserves f P hstep ts (f acc t) (hstep acc t h0)

theorem Node.pairKey_eq (n : Node α) : n.pairKey = (n.state, n.cost) := rfl

/-- Inversion of a normally completed UCS/A* iteration. -/
theorem pqStep_next_inv [DecidableEq α] (prob : Problem α) (costF : Node α → α → ℤ)
    (c c2 : PQConfig α) (h : pqStep prob costF c = .next c2) :
    ∃ node fr1, heappop c.frontier = some (node, fr1) ∧
      (node.state, node.cost) ∈ c.frontier_states ∧
      prob.goal_test node.state = false ∧
      c2.frontier = (pqExpand prob costF node (insert node.state c.explored) fr1
          (c.frontier_states.erase (node.state, node.cost))).1 ∧
      c2.frontier_states = (pqExpand prob costF node (insert node.state c.explored) fr1
          (c.frontier_states.erase (node.state, node.cost))).2.1 ∧
      c2.explored = insert node.state c.explored := by
  rw [pqStep] at h
  cases hp : heappop c.frontier with
  | none => rw [hp] at h; exact absurd h (by intro hh; cases hh)
  | some pr =>
    obtain ⟨node, fr1⟩ := pr
    rw [hp] at h
    simp only at h
    by_cases hmem : (node.state, node.cost) ∈ c.frontier_states
    · rw [if_pos hmem] at h
      by_cases hg : prob.goal_test node.state = true
      · rw [if_pos hg] at h; exact absurd h (by intro hh; cases hh)
      · rw [if_neg hg] at h
        refine ⟨node, fr1, rfl, hmem, by simpa using hg, ?_, ?_, ?_⟩ <;>
          · cases h; rfl
    · rw [if_neg hmem] at h; exact absurd h (by intro hh; cases hh)

/-- Inversion of a UCS/A* iteration that raises `KeyError`. -/
theorem pqStep_keyError_inv [DecidableEq α] (prob : Problem α)
    (costF : Node α → α → ℤ) (c : PQConfig α)
    (h : pqStep prob costF c = .keyError) :
    ∃ node fr1, heappop c.frontier = some (node, fr1) ∧
      (node.state, node.cost) ∉ c.frontier_states := by
  rw [pqStep] at h
  cases hp : heappop c.frontier with
  | none => rw [hp] at h; exact absurd h (by intro hh; cases hh)
  | some pr =>
    obtain ⟨node, fr1⟩ := pr
    rw [hp] at h
    simp only at h
    by_cases hmem : (node.state, node.cost) ∈ c.frontier_states
    · rw [if_pos hmem] at h
      by_cases hg : prob.goal_test node.state = true
      · rw [if_pos hg] at h; exact absurd h (by intro hh; cases hh)
      · rw [if_neg hg] at h; exact absurd h (by intro hh; cases hh)
    · exact ⟨node, fr1, rfl, hmem⟩

/-! ## The key-set invariant of UCS/A* (claim C10) -/

/-- One neighbor-loop body preserves "`frontier_states` mirrors the heap's
`(state, cost)` keys". -/
theorem pqConsider_keyP [DecidableEq α] (costF : Node α → α → ℤ) (node : Node α)
    (explored : Finset α) (acc : List (Node α) × Finset (α × ℤ) × List (α × ℤ))
    (t : α) (h : acc.2.1 = (acc.1.map Node.pairKey).toFinset) :
    (pqConsider costF node explored acc t).2.1 =
      ((pqConsider costF node explored acc t).1.map Node.pairKey).toFinset := by
  rw [pqConsider]
  split
  · simp only
    have hperm : List.Perm (heappush acc.1 (Node.mk t (costF node t) (some t) (some node)))
        (Node.mk t (costF node t) (some t) (some node) :: acc.1) :=
      Multiset.coe_eq_coe.mp (heappush_coe acc.1 _)
    rw [List.toFinset_eq_of_perm _ _ (hperm.map Node.pairKey), List.map_cons,
      List.toFinset_cons, ← h]
    rfl
  · exact h

/-- A normally completed UCS/A* iteration preserves the key-set invariant,
provided the heap keys were distinct. -/
theorem pq_keyinv_next [DecidableEq α] (prob : Problem α) (costF : Node α → α → ℤ)
    {c c2 : PQConfig α} (hstep : pqStep prob costF c = .next c2)
    (hkey : PqKeyInv c) (hnodup : PairsNodup c) : PqKeyInv c2 := by
  obtain ⟨node, fr1, hp, hmem, _hg, hfr, hfs, _hex⟩ :=
    pqStep_next_inv prob costF c c2 hstep
  have hperm : List.Perm c.frontier (node :: fr1) :=
    Multiset.coe_eq_coe.mp (heappop_coe _ _ _ hp)
  have hpermmap : List.Perm (c.frontier.map Node.pairKey)
      (node.pairKey :: fr1.map Node.pairKey) := by
    simpa using hperm.map Node.pairKey
  have hnd : (node.pairKey :: fr1.map Node.pairKey).Nodup :=
    (hpermmap.nodup_iff).mp hnodup
  have hnotin : node.pairKey ∉ fr1.map Node.pairKey := (List.nodup_cons.mp hnd).1
  have hkey2 : c.frontier_states = (c.frontier.map Node.pairKey).toFinset := hkey
  have hbase : c.frontier_states.erase (node.state, node.cost) =
      (fr1.map Node.pairKey).toFinset := by
    rw [hkey2, List.toFinset_eq_of_perm _ _ hpermmap, List.toFinset_cons,
      ← Node.pairKey_eq, Finset.erase_insert (by simpa [List.mem_toFinset] using hnotin)]
  have hfold := foldl_preserves
    (pqConsider costF node (insert node.state c.explored))
    (fun acc => acc.2.1 = (acc.1.map Node.pairKey).toFinset)
    (fun acc b hacc => pqConsider_keyP costF node (insert node.state c.explored) acc b hacc)
    (prob.actions node.state)
    (fr1, c.frontier_states.erase (node.state, node.cost), [])
    hbase
  rw [PqKeyInv, hfs, hfr]
  exact hfold

/-- On every run the initial configuration satisfies the key-set invariant. -/
theorem pq_keyinv_init [DecidableEq α] (prob : Problem α) : PqKeyInv (pqInit prob) := by
  simp [PqKeyInv, pqInit, Node.pairKey, Node.state, Node.cost]

/-- Reachable configurations satisfy the key-set invariant, provided heap
keys stay distinct along the run. -/
theorem pq_reach_keyinv [DecidableEq α] (prob : Problem α) (costF : Node α → α → ℤ)
    (hall : ∀ c, PqReach prob costF c → PairsNodup c) :
    ∀ c, PqReach prob costF c → PqKeyInv c := by
  intro c hc
  induction hc with
  | init => exact pq_keyinv_init prob
  | step hreach hstep ih => exact pq_keyinv_next _ _ hstep ih (hall _ hreach)

/-- **C10** (amended).  In `uniform_cost_search` and `a_star_search` (both
instances of `pqStep` with their respective cost functions), on every run in
which no two heap nodes ever share a `(state, cost)` key, whenever a node is
popped from the heap its `(state, cost)` pair is present in
`frontier_states`, and consequently the `frontier_states.remove` never
raises: the iteration never produces the `KeyError` result. -/
theorem C10_amended_pop_pair_present [DecidableEq α] (prob : Problem α)
    (costF : Node α → α → ℤ)
    (hall : ∀ c, PqReach prob costF c → PairsNodup c)
    (c : PQConfig α) (hreach : PqReach prob costF c) :
    (∀ node fr1, heappop c.frontier = some (node, fr1) →
      (node.state, node.cost) ∈ c.frontier_states) ∧
    pqStep prob costF c ≠ .keyError := by
  have hkey := pq_reach_keyinv prob costF hall c hreach
  have hkey2 : c.frontier_states = (c.frontier.map Node.pairKey).toFinset := hkey
  have hpop : ∀ node fr1, heappop c.frontier = some (node, fr1) →
      (node.state, node.cost) ∈ c.frontier_states := by
    intro node fr1 hp
    have hperm : List.Perm c.frontier (node :: fr1) :=
      Multiset.coe_eq_coe.mp (heappop_coe _ _ _ hp)
    have hmemf : node ∈ c.frontier := hperm.mem_iff.mpr (List.mem_cons_self _ _)
    rw [hkey2, List.mem_toFinset, ← Node.pairKey_eq]
    exact List.mem_map_of_mem Node.pairKey hmemf
  refine ⟨hpop, fun hke => ?_⟩
  obtain ⟨node, fr1, hp, hnot⟩ := pqStep_keyError_inv prob costF c hke
  exact hnot (hpop node fr1 hp)

/-- The single UCS iteration on `trivial_problem` completes normally. -/
theorem trivial_pq_step :
    pqStep trivial_problem (ucsCost trivial_problem) (pqInit trivial_problem) =
      .next trivial_pq1 := rfl

/-- The UCS loop on `trivial_problem` stops at `trivial_pq1`. -/
theorem trivial_pq_step1 :
    pqStep trivial_problem (ucsCost trivial_problem) trivial_pq1 = .exhausted := rfl

/-- The only configurations UCS reaches on `trivial_problem`. -/
theorem trivial_pq_reach_cases (c : PQConfig String)
    (hc : PqReach trivial_problem (ucsCost trivial_problem) c) :
    c = pqInit trivial_problem ∨ c = trivial_pq1 := by
  induction hc with
  | init => exact Or.inl rfl
  | step hreach hstep ih =>
    rcases ih with h0 | h1
    · subst h0
      rw [trivial_pq_step] at hstep
      cases hstep
      exact Or.inr rfl
    · subst h1
      rw [trivial_pq_step1] at hstep
      cases hstep

/-- Every configuration UCS reaches on `trivial_problem` has distinct heap
keys. -/
theorem trivial_pq_nodup (c : PQConfig String)
    (hc : PqReach trivial_problem (ucsCost trivial_problem) c) : PairsNodup c := by
  rcases trivial_pq_reach_cases c hc with h | h
  · subst h
    unfold PairsNodup
    decide
  · subst h
    unfold PairsNodup
    decide

/-! ## The BFS/DFS loop invariant (claim C9) -/

/-- Inversion of a normally completed BFS/DFS iteration. -/
theorem fifoStep_next_inv [DecidableEq α] (pushLeft : Bool) (prob : Problem α)
    (c c2 : FifoConfig α) (h : fifoStep pushLeft prob c = .next c2) :
    ∃ node, c.frontier.getLast? = some node ∧
      node.state ∈ c.frontier_states ∧
      prob.goal_test node.state = false ∧
      c2.frontier = (fifoExpand prob pushLeft node (insert node.state c.explored)
          c.frontier.dropLast (c.frontier_states.erase node.state)).1 ∧
      c2.frontier_states = (fifoExpand prob pushLeft node (insert node.state c.explored)
          c.frontier.dropLast (c.frontier_states.erase node.state)).2.1 ∧
      c2.explored = insert node.state c.explored := by
  rw [fifoStep] at h
  cases hp : c.frontier.getLast? with
  | none => rw [hp] at h; exact absurd h (by intro hh; cases hh)
  | some node =>
    rw [hp] at h
    simp only at h
    by_cases hmem : node.state ∈ c.frontier_states
    · rw [if_pos hmem] at h
      by_cases hg : prob.goal_test node.state = true
      · rw [if_pos hg] at h; exact absurd h (by intro hh; cases hh)
      · rw [if_neg hg] at h
        refine ⟨node, rfl, hmem, by simpa using hg, ?_, ?_, ?_⟩ <;>
          · cases h; rfl
    · rw [if_neg hmem] at h; exact absurd h (by intro hh; cases hh)

/-- Inversion of a BFS/DFS iteration that raises `KeyError`. -/
theorem fifoStep_keyError_inv [DecidableEq α] (pushLeft : Bool) (prob : Problem α)
    (c : FifoConfig α) (h : fifoStep pushLeft prob c = .keyError) :
    ∃ node, c.frontier.getLast? = some node ∧ node.state ∉ c.frontier_states := by
  rw [fifoStep] at h
  cases hp : c.frontier.getLast? with
  | none => rw [hp] at h; exact absurd h (by intro hh; cases hh)
  | some node =>
    rw [hp] at h
    simp only at h
    by_cases hmem : node.state ∈ c.frontier_states
    · rw [if_pos hmem] at h
      by_cases hg : prob.goal_test node.state = true
      · rw [if_pos hg] at h; exact absurd h (by intro hh; cases hh)
      · rw [if_neg hg] at h; exact absurd h (by intro hh; cases hh)
    · exact ⟨node, rfl, hmem⟩

/-- One BFS/DFS neighbor-loop body preserves the frontier bookkeeping: the
state list stays duplicate-free, `frontier_states` mirrors it, it stays
disjoint from the explored set, and the ghost trace records exactly the fresh
insertions. -/
theorem fifoConsider_invP [DecidableEq α] (prob : Problem α) (pushLeft : Bool)
    (node : Node α) (explored1 : Finset α) (fs1 : Finset α)
    (acc : List (Node α) × Finset α × List α) (t : α)
    (h1 : (acc.1.map Node.state).Nodup)
    (h2 : acc.2.1 = (acc.1.map Node.state).toFinset)
    (h3 : Disjoint acc.2.1 explored1)
    (h4 : acc.2.1 = fs1 ∪ acc.2.2.toFinset)
    (h5 : acc.2.2.Nodup)
    (h6 : ∀ u ∈ acc.2.2, u ∉ fs1 ∧ u ∉ explored1) :
    ((fifoConsider prob pushLeft node explored1 acc t).1.map Node.state).Nodup ∧
    (fifoConsider prob pushLeft node explored1 acc t).2.1 =
      ((fifoConsider prob pushLeft node explored1 acc t).1.map Node.state).toFinset ∧
    Disjoint (fifoConsider prob pushLeft node explored1 acc t).2.1 explored1 ∧
    (fifoConsider prob pushLeft node explored1 acc t).2.1 =
      fs1 ∪ (fifoConsider prob pushLeft node explored1 acc t).2.2.toFinset ∧
    (fifoConsider prob pushLeft node explored1 acc t).2.2.Nodup ∧
    (∀ u ∈ (fifoConsider prob pushLeft node explored1 acc t).2.2,
      u ∉ fs1 ∧ u ∉ explored1) := by
  rw [fifoConsider]
  split
  next hcond =>
    obtain ⟨hex, hfs⟩ := hcond
    simp only
    have hts : t ∉ acc.1.map Node.state := by
      intro hmem
      exact hfs (h2 ▸ List.mem_toFinset.mpr hmem)
    have hmap : (fifoPush pushLeft
        (Node.mk t (prob.path_cost node.cost node.state none t) (some t) (some node))
        acc.1).map Node.state =
        if pushLeft then t :: acc.1.map Node.state
        else acc.1.map Node.state ++ [t] := by
      rw [fifoPush]
      split <;> simp [Node.state]
    constructor
    · rw [hmap]
      split
      · exact List.nodup_cons.mpr ⟨hts, h1⟩
      · rw [List.nodup_append]
        refine ⟨h1, List.nodup_singleton t, ?_⟩
        intro u hu hut
        rw [List.mem_singleton] at hut
        subst hut
        exact hts hu
    constructor
    · rw [hmap]
      split
      · rw [List.toFinset_cons, h2]
      · rw [List.toFinset_eq_of_perm _ _ (List.perm_append_singleton t _),
          List.toFinset_cons, h2]
    constructor
    · rw [Finset.disjoint_insert_left]
      exact ⟨hex, h3⟩
    constructor
    · rw [h4, List.toFinset_eq_of_perm _ _ (List.perm_append_singleton t _),
        List.toFinset_cons]
      ext u
      simp only [Finset.mem_insert, Finset.mem_union]
      tauto
    constructor
    · rw [List.nodup_append]
      refine ⟨h5, List.nodup_singleton t, ?_⟩
      intro u hu hut
      rw [List.mem_singleton] at hut
      subst hut
      exact hfs (h4 ▸ Finset.mem_union_right _ (List.mem_toFinset.mpr hu))
    · intro u hu
      rcases List.mem_append.mp hu with hu | hu
      · exact h6 u hu
      · rcases List.mem_singleton.mp hu with rfl
        exact ⟨fun hc => hfs (h4 ▸ Finset.mem_union_left _ hc), hex⟩
  next =>
    exact ⟨h1, h2, h3, h4, h5, h6⟩

/-- The BFS/DFS loop invariant of claim C9 holds at the initial
configuration and is preserved by every normally completed iteration,
together with the ghost bookkeeping of inserted states. -/
theorem fifo_inv_next [DecidableEq α] (pushLeft : Bool) (prob : Problem α)
    {c c2 : FifoConfig α} (hstep : fifoStep pushLeft prob c = .next c2)
    (hinv : FifoInv c) :
    FifoInv c2 ∧
    (fifoStepPushed pushLeft prob c).Nodup ∧
    (∀ u ∈ fifoStepPushed pushLeft prob c,
      u ∉ c.frontier_states ∪ c.explored) ∧
    c2.frontier_states ∪ c2.explored =
      (c.frontier_states ∪ c.explored) ∪
        (fifoStepPushed pushLeft prob c).toFinset := by
  obtain ⟨node, hlast, hmem, hg, hfr, hfs, hex⟩ :=
    fifoStep_next_inv pushLeft prob c c2 hstep
  obtain ⟨hnd, hkey, hdisj⟩ := hinv
  have hsplit : c.frontier.dropLast ++ [node] = c.frontier :=
    List.dropLast_append_getLast? node hlast
  have hndsplit : ((c.frontier.dropLast.map Node.state) ++ [node.state]).Nodup := by
    have : (c.frontier.dropLast ++ [node]).map Node.state =
        c.frontier.dropLast.map Node.state ++ [node.state] := by simp
    rw [← this, hsplit]
    exact hnd
  have hnmem : node.state ∉ c.frontier.dropLast.map Node.state := by
    rw [List.nodup_append] at hndsplit
    intro hcon
    exact hndsplit.2.2 hcon (List.mem_singleton.mpr rfl)
  have hnd1 : (c.frontier.dropLast.map Node.state).Nodup := by
    rw [List.nodup_append] at hndsplit
    exact hndsplit.1
  have hkey1 : c.frontier_states.erase node.state =
      (c.frontier.dropLast.map Node.state).toFinset := by
    have hmapsplit : c.frontier.map Node.state =
        c.frontier.dropLast.map Node.state ++ [node.state] := by
      rw [← hsplit]
      simp
    rw [hkey, hmapsplit,
      List.toFinset_eq_of_perm _ _ (List.perm_append_singleton node.state _),
      List.toFinset_cons,
      Finset.erase_insert (by simpa [List.mem_toFinset] using hnmem)]
  have hdisj1 : Disjoint (c.frontier_states.erase node.state)
      (insert node.state c.explored) := by
    rw [Finset.disjoint_insert_right]
    exact ⟨Finset.not_mem_erase _ _,
      Finset.disjoint_of_subset_left (Finset.erase_subset _ _) hdisj⟩
  have hpushed : fifoStepPushed pushLeft prob c =
      (fifoExpand prob pushLeft node (insert node.state c.explored)
        c.frontier.dropLast (c.frontier_states.erase node.state)).2.2 := by
    rw [fifoStepPushed, hlast]
    simp only [if_pos hmem, hg]
    rfl
  have hfold := foldl_preserves
    (fifoConsider prob pushLeft node (insert node.state c.explored))
    (fun acc =>
      ((acc.1.map Node.state).Nodup ∧
        acc.2.1 = (acc.1.map Node.state).toFinset ∧
        Disjoint acc.2.1 (insert node.state c.explored)) ∧
      acc.2.1 = c.frontier_states.erase node.state ∪ acc.2.2.toFinset ∧
      acc.2.2.Nodup ∧
      (∀ u ∈ acc.2.2, u ∉ c.frontier_states.erase node.state ∧
        u ∉ insert node.state c.explored))
    (fun acc b hacc => by
      obtain ⟨⟨p1, p2, p3⟩, p4, p5, p6⟩ := hacc
      obtain ⟨q1, q2, q3, q4, q5, q6⟩ := fifoConsider_invP prob pushLeft node
        (insert node.state c.explored) (c.frontier_states.erase node.state)
        acc b p1 p2 p3 p4 p5 p6
      exact ⟨⟨q1, q2, q3⟩, q4, q5, q6⟩)
    (prob.actions node.state)
    (c.frontier.dropLast, c.frontier_states.erase node.state, [])
    ⟨⟨hnd1, hkey1, by
      rw [Finset.disjoint_insert_right]
      exact ⟨Finset.not_mem_erase _ _,
        Finset.disjoint_of_subset_left (Finset.erase_subset _ _) hdisj⟩⟩,
      by simp, by simp, by simp⟩
  have hfold2 :
      (((fifoExpand prob pushLeft node (insert node.state c.explored)
          c.frontier.dropLast (c.frontier_states.erase node.state)).1.map
            Node.state).Nodup ∧
        (fifoExpand prob pushLeft node (insert node.state c.explored)
          c.frontier.dropLast (c.frontier_states.erase node.state)).2.1 =
          ((fifoExpand prob pushLeft node (insert node.state c.explored)
            c.frontier.dropLast (c.frontier_states.erase node.state)).1.map
              Node.state).toFinset ∧
        Disjoint (fifoExpand prob pushLeft node (insert node.state c.explored)
          c.frontier.dropLast (c.frontier_states.erase node.state)).2.1
          (insert node.state c.explored)) ∧
      (fifoExpand prob pushLeft node (insert node.state c.explored)
        c.frontier.dropLast (c.frontier_states.erase node.state)).2.1 =
        c.frontier_states.erase node.state ∪
          (fifoExpand prob pushLeft node (insert node.state c.explored)
            c.frontier.dropLast (c.frontier_states.erase node.state)).2.2.toFinset ∧
      ((fifoExpand prob pushLeft node (insert node.state c.explored)
        c.frontier.dropLast (c.frontier_states.erase node.state)).2.2).Nodup ∧
      (∀ u ∈ (fifoExpand prob pushLeft node (insert node.state c.explored)
          c.frontier.dropLast (c.frontier_states.erase node.state)).2.2,
        u ∉ c.frontier_states.erase node.state ∧
        u ∉ insert node.state c.explored) := hfold
  obtain ⟨⟨q1, q2, q3⟩, q4, q5, q6⟩ := hfold2
  have hunion : c.frontier_states.erase node.state ∪ insert node.state c.explored =
      c.frontier_states ∪ c.explored := by
    ext u
    simp only [Finset.mem_union, Finset.mem_erase, Finset.mem_insert]
    constructor
    · rintro (⟨_, hu⟩ | rfl | hu)
      · exact Or.inl hu
      · exact Or.inl hmem
      · exact Or.inr hu
    · rintro (hu | hu)
      · by_cases he : u = node.state
        · exact Or.inr (Or.inl he)
        · exact Or.inl ⟨he, hu⟩
      · exact Or.inr (Or.inr hu)
  refine ⟨⟨?_, ?_, ?_⟩, ?_, ?_, ?_⟩
  · rw [hfr]; exact q1
  · rw [hfr, hfs]; exact q2
  · rw [hfs, hex]; exact q3
  · rw [hpushed]; exact q5
  · rw [hpushed]
    intro u hu
    obtain ⟨hu1, hu2⟩ := q6 u hu
    rw [← hunion]
    intro hcon
    rcases Finset.mem_union.mp hcon with hc | hc
    · exact hu1 hc
    · exact hu2 hc
  · rw [hfs, hex, hpushed, q4, ← hunion]
    ext u
    simp only [Finset.mem_union]
    tauto

/-- The C9 invariant holds initially. -/
theorem fifo_inv_init [DecidableEq α] (prob : Problem α) : FifoInv (fifoInit prob) := by
  refine ⟨by simp [fifoInit], ?_, by simp [fifoInit]⟩
  simp [fifoInit, Node.state]

/-- With the invariant, popping never misses `frontier_states`. -/
theorem fifo_inv_no_keyError [DecidableEq α] (pushLeft : Bool) (prob : Problem α)
    (c : FifoConfig α) (hinv : FifoInv c) :
    fifoStep pushLeft prob c ≠ .keyError := by
  intro hke
  obtain ⟨node, hlast, hnot⟩ := fifoStep_keyError_inv pushLeft prob c hke
  have hsplit : c.frontier.dropLast ++ [node] = c.frontier :=
    List.dropLast_append_getLast? node hlast
  have hmem : node ∈ c.frontier := by
    rw [← hsplit]
    exact List.mem_append_right _ (List.mem_singleton.mpr rfl)
  exact hnot (hinv.2.1 ▸ List.mem_toFinset.mpr (List.mem_map_of_mem Node.state hmem))

/-- Reachable BFS/DFS configurations satisfy the C9 invariant, and the ghost
multiset of inserted states stays duplicate-free and covers exactly
`frontier_states ∪ explored`. -/
theorem fifo_reach_inv [DecidableEq α] (pushLeft : Bool) (prob : Problem α) :
    ∀ (c : FifoConfig α) (M : Multiset α), FifoReach pushLeft prob c M →
      FifoInv c ∧ M.Nodup ∧ M.toFinset = c.frontier_states ∪ c.explored := by
  intro c M hreach
  induction hreach with
  | init =>
    refine ⟨fifo_inv_init prob, Multiset.nodup_singleton _, ?_⟩
    simp [fifoInit]
  | @step c1 M1 c2 _hr hstep ih =>
    obtain ⟨hinv, hM1, hcov⟩ := ih
    obtain ⟨hinv2, hpnd, hpfresh, hpun⟩ := fifo_inv_next pushLeft prob hstep hinv
    refine ⟨hinv2, ?_, ?_⟩
    · rw [Multiset.nodup_add]
      refine ⟨hM1, by simpa using hpnd, ?_⟩
      rw [Multiset.disjoint_left]
      intro u huM hupushed
      have h1 : u ∈ c1.frontier_states ∪ c1.explored := by
        rw [← hcov]
        exact Multiset.mem_toFinset.mpr huM
      exact hpfresh u (by simpa using hupushed) h1
    · rw [Multiset.toFinset_add, hcov, hpun]
      simp

/-! ## Termination of the BFS/DFS loop -/

theorem foldl_preserves_mem {β γ : Type} (f : γ → β → γ) (P : γ → Prop) :
    ∀ (ts : List β), (∀ acc b, b ∈ ts → P acc → P (f acc b)) →
      ∀ acc, P acc → P (ts.foldl f acc)
  | [], _, _, h0 => h0
  | t :: ts, hstep, acc, h0 =>
    foldl_preserves_mem f P ts
      (fun acc2 b hb hacc => hstep acc2 b (List.mem_cons_of_mem t hb) hacc)
      (f acc t) (hstep acc t (List.mem_cons_self t ts) h0)

theorem fifoPush_length (pushLeft : Bool) (n : Node α) (fr : List (Node α)) :
    (fifoPush pushLeft n fr).length = fr.length + 1 := by
  rw [fifoPush]
  split <;> simp

theorem fifoPush_mem (pushLeft : Bool) (n x : Node α) (fr : List (Node α))
    (h : x ∈ fifoPush pushLeft n fr) : x = n ∨ x ∈ fr := by
  rw [fifoPush] at h
  rcases Bool.eq_false_or_eq_true pushLeft with hb | hb <;> subst hb <;> simp at h <;>
    tauto

/-- A normally completed BFS/DFS iteration keeps all states inside the
closed universe `S` and strictly decreases the termination measure. -/
theorem fifo_sinv_measure_next [DecidableEq α] (pushLeft : Bool) (prob : Problem α)
    (S : Finset α) (hS : ClosedUniverse prob S) {c c2 : FifoConfig α}
    (hstep : fifoStep pushLeft prob c = .next c2) (hsinv : FifoSInv S c) :
    FifoSInv S c2 ∧ fifoMeasure S c2 < fifoMeasure S c := by
  obtain ⟨node, hlast, hmem, _hg, hfr, hfs, hex⟩ :=
    fifoStep_next_inv pushLeft prob c c2 hstep
  obtain ⟨hfrS, hfsS, hexS⟩ := hsinv
  have hsplit : c.frontier.dropLast ++ [node] = c.frontier :=
    List.dropLast_append_getLast? node hlast
  have hnodeF : node ∈ c.frontier := by
    rw [← hsplit]
    exact List.mem_append_right _ (List.mem_singleton.mpr rfl)
  have hnodeS : node.state ∈ S := hfrS node hnodeF
  have hactS : ∀ t ∈ prob.actions node.state, t ∈ S :=
    fun t ht => hS.2 node.state hnodeS t ht
  have hfr1S : ∀ n ∈ c.frontier.dropLast, n.state ∈ S :=
    fun n hn => hfrS n (by rw [← hsplit]; exact List.mem_append_left _ hn)
  have hE1S : insert node.state c.explored ⊆ S := by
    intro u hu
    rcases Finset.mem_insert.mp hu with rfl | hu
    · exact hnodeS
    · exact hexS hu
  -- the fold preserves the S-invariant and a measure bound
  have hfold := foldl_preserves_mem
    (fifoConsider prob pushLeft node (insert node.state c.explored))
    (fun acc =>
      ((∀ n ∈ acc.1, n.state ∈ S) ∧ acc.2.1 ⊆ S) ∧
      2 * (S \ (insert node.state c.explored ∪ acc.2.1)).card + acc.1.length ≤
        2 * (S \ (insert node.state c.explored ∪
          c.frontier_states.erase node.state)).card + c.frontier.dropLast.length)
    (prob.actions node.state)
    (fun acc t ht hacc => by
      obtain ⟨⟨a1, a2⟩, a3⟩ := hacc
      rw [fifoConsider]
      split
      next hcond =>
        obtain ⟨hex1, hfs1⟩ := hcond
        have htS : t ∈ S := hactS t ht
        constructor
        constructor
        · intro n hn
          rcases fifoPush_mem pushLeft _ n acc.1 hn with rfl | hn
          · exact htS
          · exact a1 n hn
        · intro u hu
          rcases Finset.mem_insert.mp hu with rfl | hu
          · exact htS
          · exact a2 hu
        · simp only [fifoPush_length]
          have hcard : (S \ (insert node.state c.explored ∪ insert t acc.2.1)).card + 1 =
              (S \ (insert node.state c.explored ∪ acc.2.1)).card := by
            have hmemdiff : t ∈ S \ (insert node.state c.explored ∪ acc.2.1) := by
              rw [Finset.mem_sdiff]
              refine ⟨htS, ?_⟩
              intro hu
              rcases Finset.mem_union.mp hu with hu | hu
              · exact hex1 hu
              · exact hfs1 hu
            have hstepdiff : S \ (insert node.state c.explored ∪ insert t acc.2.1) =
                (S \ (insert node.state c.explored ∪ acc.2.1)).erase t := by
              ext u
              simp only [Finset.mem_sdiff, Finset.mem_union, Finset.mem_insert,
                Finset.mem_erase]
              tauto
            rw [hstepdiff, Finset.card_erase_of_mem hmemdiff]
            have : 0 < (S \ (insert node.state c.explored ∪ acc.2.1)).card :=
              Finset.card_pos.mpr ⟨t, hmemdiff⟩
            omega
          omega
      next => exact ⟨⟨a1, a2⟩, a3⟩)
    (c.frontier.dropLast, c.frontier_states.erase node.state, [])
    (by
      refine ⟨⟨hfr1S, ?_⟩, Nat.le_refl _⟩
      exact fun u hu => hfsS (Finset.mem_of_mem_erase hu))
  have hfold2 :
      (((∀ n ∈ (fifoExpand prob pushLeft node (insert node.state c.explored)
          c.frontier.dropLast (c.frontier_states.erase node.state)).1, n.state ∈ S) ∧
        (fifoExpand prob pushLeft node (insert node.state c.explored)
          c.frontier.dropLast (c.frontier_states.erase node.state)).2.1 ⊆ S) ∧
      2 * (S \ (insert node.state c.explored ∪
          (fifoExpand prob pushLeft node (insert node.state c.explored)
            c.frontier.dropLast (c.frontier_states.erase node.state)).2.1)).card +
        (fifoExpand prob pushLeft node (insert node.state c.explored)
          c.frontier.dropLast (c.frontier_states.erase node.state)).1.length ≤
      2 * (S \ (insert node.state c.explored ∪
          c.frontier_states.erase node.state)).card + c.frontier.dropLast.length) :=
    hfold
  obtain ⟨⟨b1, b2⟩, b3⟩ := hfold2
  have hlen1 : c.frontier.dropLast.length + 1 = c.frontier.length := by
    rw [← hsplit]
    simp
  have hsub : S \ (c.explored ∪ c.frontier_states) ⊆
      S \ (insert node.state c.explored ∪ c.frontier_states.erase node.state) := by
    intro u hu
    rw [Finset.mem_sdiff] at hu ⊢
    refine ⟨hu.1, ?_⟩
    intro hcon
    rcases Finset.mem_union.mp hcon with hc | hc
    · rcases Finset.mem_insert.mp hc with rfl | hc
      · exact hu.2 (Finset.mem_union_right _ hmem)
      · exact hu.2 (Finset.mem_union_left _ hc)
    · exact hu.2 (Finset.mem_union_right _ (Finset.mem_of_mem_erase hc))
  have hsub2 : S \ (insert node.state c.explored ∪ c.frontier_states.erase node.state) ⊆
      S \ (c.explored ∪ c.frontier_states) := by
    intro u hu
    rw [Finset.mem_sdiff] at hu ⊢
    refine ⟨hu.1, ?_⟩
    intro hcon
    apply hu.2
    rcases Finset.mem_union.mp hcon with hc | hc
    · exact Finset.mem_union_left _ (Finset.mem_insert_of_mem hc)
    · by_cases hun : u = node.state
      · exact Finset.mem_union_left _ (hun ▸ Finset.mem_insert_self _ _)
      · exact Finset.mem_union_right _ (Finset.mem_erase.mpr ⟨hun, hc⟩)
  have hcardeq : (S \ (insert node.state c.explored ∪
      c.frontier_states.erase node.state)).card = (S \ (c.explored ∪ c.frontier_states)).card := by
    have := Finset.Subset.antisymm hsub2 hsub
    rw [this]
  constructor
  · refine ⟨?_, ?_, ?_⟩
    · rw [hfr]; exact b1
    · rw [hfs]; exact b2
    · rw [hex]; exact hE1S
  · rw [fifoMeasure, fifoMeasure, hfr, hfs, hex]
    calc 2 * (S \ (insert node.state c.explored ∪
          (fifoExpand prob pushLeft node (insert node.state c.explored)
            c.frontier.dropLast (c.frontier_states.erase node.state)).2.1)).card +
        (fifoExpand prob pushLeft node (insert node.state c.explored)
          c.frontier.dropLast (c.frontier_states.erase node.state)).1.length ≤
        2 * (S \ (insert node.state c.explored ∪
          c.frontier_states.erase node.state)).card + c.frontier.dropLast.length := b3
      _ = 2 * (S \ (c.explored ∪ c.frontier_states)).card +
          c.frontier.dropLast.length := by rw [hcardeq]
      _ < 2 * (S \ (c.explored ∪ c.frontier_states)).card + c.frontier.length := by
          omega

/-- The S-invariant holds initially when `S` contains the initial state. -/
theorem fifo_sinv_init [DecidableEq α] (prob : Problem α) (S : Finset α)
    (hS : ClosedUniverse prob S) : FifoSInv S (fifoInit prob) := by
  refine ⟨?_, ?_, ?_⟩
  · intro n hn
    rw [fifoInit] at hn
    rcases List.mem_singleton.mp hn with rfl
    exact hS.1
  · intro u hu
    rw [fifoInit] at hu
    rcases Finset.mem_singleton.mp hu with rfl
    exact hS.1
  · intro u hu
    exact absurd hu (Finset.not_mem_empty u)

/-- The BFS/DFS loop terminates from any configuration whose states stay in
a closed finite universe. -/
theorem fifoRun_terminates [DecidableEq α] (pushLeft : Bool) (prob : Problem α)
    (S : Finset α) (hS : ClosedUniverse prob S) :
    ∀ (m : ℕ) (c : FifoConfig α), fifoMeasure S c ≤ m → FifoSInv S c →
      ∃ fuel o, fifoRun pushLeft prob fuel c = some o := by
  intro m
  induction m with
  | zero =>
    intro c hm hsinv
    cases hstep : fifoStep pushLeft prob c with
    | found n => exact ⟨1, .found n, by rw [fifoRun, hstep]⟩
    | exhausted => exact ⟨1, .nopath, by rw [fifoRun, hstep]⟩
    | keyError => exact ⟨1, .keyError, by rw [fifoRun, hstep]⟩
    | next c2 =>
      have := (fifo_sinv_measure_next pushLeft prob S hS hstep hsinv).2
      omega
  | succ m ih =>
    intro c hm hsinv
    cases hstep : fifoStep pushLeft prob c with
    | found n => exact ⟨1, .found n, by rw [fifoRun, hstep]⟩
    | exhausted => exact ⟨1, .nopath, by rw [fifoRun, hstep]⟩
    | keyError => exact ⟨1, .keyError, by rw [fifoRun, hstep]⟩
    | next c2 =>
      obtain ⟨hsinv2, hdec⟩ := fifo_sinv_measure_next pushLeft prob S hS hstep hsinv
      obtain ⟨fuel, o, ho⟩ := ih c2 (by omega) hsinv2
      exact ⟨fuel + 1, o, by rw [fifoRun, hstep]; exact ho⟩

/-! ## Termination of the UCS/A* loop -/

theorem Node.state_mem_stateChain (n : Node α) : n.state ∈ n.stateChain := by
  cases n with
  | mk s c a p =>
    cases p <;> simp [Node.stateChain, Node.state]

theorem heappush_mem (fr : List (Node α)) (x x2 : Node α)
    (h : x2 ∈ heappush fr x) : x2 = x ∨ x2 ∈ fr := by
  have hperm : List.Perm (heappush fr x) (x :: fr) :=
    Multiset.coe_eq_coe.mp (heappush_coe fr x)
  rcases List.mem_cons.mp (hperm.mem_iff.mp h) with h | h
  · exact Or.inl h
  · exact Or.inr h

theorem pqMeasure_heappush (Bp Sc : ℕ) (fr : List (Node α)) (x : Node α) :
    pqMeasure Bp Sc (heappush fr x) = nodeWeight Bp Sc x + pqMeasure Bp Sc fr := by
  have hperm : List.Perm (heappush fr x) (x :: fr) :=
    Multiset.coe_eq_coe.mp (heappush_coe fr x)
  rw [pqMeasure, pqMeasure, List.Perm.sum_eq (hperm.map (nodeWeight Bp Sc))]
  simp

theorem pqMeasure_heappop (Bp Sc : ℕ) (fr fr1 : List (Node α)) (n : Node α)
    (h : heappop fr = some (n, fr1)) :
    pqMeasure Bp Sc fr = nodeWeight Bp Sc n + pqMeasure Bp Sc fr1 := by
  have hperm : List.Perm fr (n :: fr1) :=
    Multiset.coe_eq_coe.mp (heappop_coe fr n fr1 h)
  rw [pqMeasure, pqMeasure, List.Perm.sum_eq (hperm.map (nodeWeight Bp Sc))]
  simp

/-- Fold bound: the neighbor loop adds at most one child of weight
`(B+1)^(Sc - (k+1))` per neighbor, where `k` is the popped node's chain
length. -/
theorem pq_fold_measure [DecidableEq α] (costF : Node α → α → ℤ) (node : Node α)
    (E1 : Finset α) (Bp Sc : ℕ) :
    ∀ (ts : List α) (acc : List (Node α) × Finset (α × ℤ) × List (α × ℤ)),
      pqMeasure Bp Sc (ts.foldl (pqConsider costF node E1) acc).1 ≤
        pqMeasure Bp Sc acc.1 +
          ts.length * (Bp + 1) ^ (Sc - (node.stateChain.length + 1))
  | [], acc => by simp
  | t :: ts, acc => by
    have ih := pq_fold_measure costF node E1 Bp Sc ts (pqConsider costF node E1 acc t)
    rw [List.foldl_cons]
    have hstep : pqMeasure Bp Sc (pqConsider costF node E1 acc t).1 ≤
        pqMeasure Bp Sc acc.1 + (Bp + 1) ^ (Sc - (node.stateChain.length + 1)) := by
      rw [pqConsider]
      split
      · simp only
        rw [pqMeasure_heappush]
        have hw : nodeWeight Bp Sc (Node.mk t (costF node t) (some t) (some node)) =
            (Bp + 1) ^ (Sc - (node.stateChain.length + 1)) := rfl
        omega
      · exact Nat.le_add_right _ _
    have hlen : (t :: ts).length * (Bp + 1) ^ (Sc - (node.stateChain.length + 1)) =
        ts.length * (Bp + 1) ^ (Sc - (node.stateChain.length + 1)) +
          (Bp + 1) ^ (Sc - (node.stateChain.length + 1)) := by
      rw [List.length_cons, Nat.succ_mul]
    omega

/-- If every neighbor is already explored, the neighbor loop changes
nothing. -/
theorem pq_fold_nopush [DecidableEq α] (costF : Node α → α → ℤ) (node : Node α)
    (E1 : Finset α) (ts : List α) (hall : ∀ t ∈ ts, t ∈ E1) :
    ∀ (acc : List (Node α) × Finset (α × ℤ) × List (α × ℤ)),
      (ts.foldl (pqConsider costF node E1) acc).1 = acc.1 := by
  intro acc
  have := foldl_preserves_mem (pqConsider costF node E1)
    (fun a => a.1 = acc.1) ts
    (fun a t ht ha => by
      rw [pqConsider, if_neg]
      · exact ha
      · intro hcon
        exact hcon.1 (hall t ht))
    acc rfl
  exact this

/-- A normally completed UCS/A* iteration keeps every heap node well-formed
and strictly decreases the termination measure. -/
theorem pq_sinv_measure_next [DecidableEq α] (prob : Problem α)
    (costF : Node α → α → ℤ) (S : Finset α) (hS : ClosedUniverse prob S)
    {c c2 : PQConfig α} (hstep : pqStep prob costF c = .next c2)
    (hsinv : PqSInv S c) :
    PqSInv S c2 ∧
    pqMeasure (branchBound prob S) S.card c2.frontier <
      pqMeasure (branchBound prob S) S.card c.frontier := by
  obtain ⟨node, fr1, hp, _hmem, _hg, hfr, _hfs, hex⟩ :=
    pqStep_next_inv prob costF c c2 hstep
  have hperm : List.Perm c.frontier (node :: fr1) :=
    Multiset.coe_eq_coe.mp (heappop_coe _ _ _ hp)
  have hnodeF : node ∈ c.frontier := hperm.mem_iff.mpr (List.mem_cons_self _ _)
  have hnode : PqNodeOK S c.explored node := hsinv node hnodeF
  have hfr1 : ∀ n ∈ fr1, PqNodeOK S c.explored n :=
    fun n hn => hsinv n (hperm.mem_iff.mpr (List.mem_cons_of_mem _ hn))
  have hnodeS : node.state ∈ S := hnode.2.1 node.state (Node.state_mem_stateChain node)
  have hchainE1 : ∀ s ∈ node.stateChain, s ∈ insert node.state c.explored := by
    intro s hs
    cases node with
    | mk st co a p =>
      cases p with
      | none =>
        rcases List.mem_singleton.mp hs with rfl
        exact Finset.mem_insert_self _ _
      | some par =>
        rcases List.mem_cons.mp hs with rfl | hs
        · exact Finset.mem_insert_self _ _
        · exact Finset.mem_insert_of_mem (hnode.2.2 s hs)
  have hmono : ∀ n, PqNodeOK S c.explored n → PqNodeOK S (insert node.state c.explored) n :=
    fun n hn => ⟨hn.1, hn.2.1, fun s hs => Finset.mem_insert_of_mem (hn.2.2 s hs)⟩
  have hchildOK : ∀ t ∈ prob.actions node.state, t ∉ insert node.state c.explored →
      PqNodeOK S (insert node.state c.explored)
        (Node.mk t (costF node t) (some t) (some node)) := by
    intro t ht htE
    refine ⟨?_, ?_, ?_⟩
    · have : (Node.mk t (costF node t) (some t) (some node)).stateChain =
        t :: node.stateChain := rfl
      rw [this, List.nodup_cons]
      exact ⟨fun hc => htE (hchainE1 t hc), hnode.1⟩
    · intro s hs
      rcases List.mem_cons.mp hs with rfl | hs
      · exact hS.2 node.state hnodeS s ht
      · exact hnode.2.1 s hs
    · intro s hs
      exact hchainE1 s hs
  have hsinv2 : PqSInv S c2 := by
    intro n hn
    rw [hfr] at hn
    rw [hex]
    have hfold := foldl_preserves_mem
      (pqConsider costF node (insert node.state c.explored))
      (fun acc => ∀ n2 ∈ acc.1, PqNodeOK S (insert node.state c.explored) n2)
      (prob.actions node.state)
      (fun acc t ht hacc => by
        rw [pqConsider]
        split
        next hcond =>
          simp only
          intro n2 hn2
          rcases heappush_mem acc.1 _ n2 hn2 with rfl | hn2
          · exact hchildOK t ht hcond.1
          · exact hacc n2 hn2
        next => exact hacc)
      (fr1, c.frontier_states.erase (node.state, node.cost), [])
      (fun n2 hn2 => hmono n2 (hfr1 n2 hn2))
    exact hfold n hn
  refine ⟨hsinv2, ?_⟩
  have hpop := pqMeasure_heappop (branchBound prob S) S.card c.frontier fr1 node hp
  have hwpos : 0 < nodeWeight (branchBound prob S) S.card node :=
    Nat.pos_pow_of_pos _ (by omega)
  by_cases hpush : ∀ t ∈ prob.actions node.state, t ∈ insert node.state c.explored
  · -- no neighbor is pushed
    have hnone := pq_fold_nopush costF node (insert node.state c.explored)
      (prob.actions node.state) hpush
      (fr1, c.frontier_states.erase (node.state, node.cost), [])
    rw [hfr]
    have hfr2 : (pqExpand prob costF node (insert node.state c.explored) fr1
        (c.frontier_states.erase (node.state, node.cost))).1 = fr1 := hnone
    rw [hfr2]
    omega
  · -- some neighbor is fresh, so the chain is not yet all of S
    push_neg at hpush
    obtain ⟨t0, ht0, ht0E⟩ := hpush
    have hchainS : ∀ s ∈ t0 :: node.stateChain, s ∈ S := by
      intro s hs
      rcases List.mem_cons.mp hs with rfl | hs
      · exact hS.2 node.state hnodeS s ht0
      · exact hnode.2.1 s hs
    have hchainND : (t0 :: node.stateChain).Nodup :=
      List.nodup_cons.mpr ⟨fun hc => ht0E (hchainE1 t0 hc), hnode.1⟩
    have hlenle : node.stateChain.length + 1 ≤ S.card := by
      have hsub : (t0 :: node.stateChain).toFinset ⊆ S := by
        intro u hu
        exact hchainS u (List.mem_toFinset.mp hu)
      have hcard := Finset.card_le_card hsub
      rw [List.toFinset_card_of_nodup hchainND] at hcard
      simpa using hcard
    have hboundB : (prob.actions node.state).length ≤ branchBound prob S := by
      rw [branchBound]
      exact Finset.le_sup (f := fun s => (prob.actions s).length) hnodeS
    have hfoldm := pq_fold_measure costF node (insert node.state c.explored)
      (branchBound prob S) S.card (prob.actions node.state)
      (fr1, c.frontier_states.erase (node.state, node.cost), [])
    have hexp : S.card - node.stateChain.length =
        (S.card - (node.stateChain.length + 1)) + 1 := by omega
    have hwnode : nodeWeight (branchBound prob S) S.card node =
        (branchBound prob S + 1) *
          (branchBound prob S + 1) ^ (S.card - (node.stateChain.length + 1)) := by
      rw [nodeWeight, hexp, pow_succ, Nat.mul_comm]
    have hwcpos : 0 < (branchBound prob S + 1) ^ (S.card - (node.stateChain.length + 1)) :=
      Nat.pos_pow_of_pos _ (by omega)
    have hmul : (prob.actions node.state).length *
        (branchBound prob S + 1) ^ (S.card - (node.stateChain.length + 1)) <
        nodeWeight (branchBound prob S) S.card node := by
      rw [hwnode]
      have h1 : (prob.actions node.state).length *
          (branchBound prob S + 1) ^ (S.card - (node.stateChain.length + 1)) ≤
          branchBound prob S *
            (branchBound prob S + 1) ^ (S.card - (node.stateChain.length + 1)) :=
        Nat.mul_le_mul_right _ hboundB
      have h2 : branchBound prob S *
          (branchBound prob S + 1) ^ (S.card - (node.stateChain.length + 1)) <
          (branchBound prob S + 1) *
            (branchBound prob S + 1) ^ (S.card - (node.stateChain.length + 1)) :=
        Nat.mul_lt_mul_of_lt_of_le (by omega) (Nat.le_refl _) hwcpos
      omega
    rw [hfr]
    have hfoldm2 : pqMeasure (branchBound prob S) S.card
        (pqExpand prob costF node (insert node.state c.explored) fr1
          (c.frontier_states.erase (node.state, node.cost))).1 ≤
        pqMeasure (branchBound prob S) S.card fr1 +
          (prob.actions node.state).length *
            (branchBound prob S + 1) ^ (S.card - (node.stateChain.length + 1)) := hfoldm
    omega

/-- The S-invariant of UCS/A* holds initially. -/
theorem pq_sinv_init [DecidableEq α] (prob : Problem α) (S : Finset α)
    (hS : ClosedUniverse prob S) : PqSInv S (pqInit prob) := by
  intro n hn
  rw [pqInit] at hn
  rcases List.mem_singleton.mp hn with rfl
  refine ⟨by simp [Node.stateChain], ?_, by simp [Node.stateChain]⟩
  intro s hs
  simp only [Node.stateChain, List.mem_singleton] at hs
  subst hs
  exact hS.1

/-- The UCS/A* loop terminates from any well-formed configuration. -/
theorem pqRun_terminates [DecidableEq α] (prob : Problem α)
    (costF : Node α → α → ℤ) (S : Finset α) (hS : ClosedUniverse prob S) :
    ∀ (m : ℕ) (c : PQConfig α),
      pqMeasure (branchBound prob S) S.card c.frontier ≤ m → PqSInv S c →
      ∃ fuel o, pqRun prob costF fuel c = some o := by
  intro m
  induction m with
  | zero =>
    intro c hm hsinv
    cases hstep : pqStep prob costF c with
    | found n => exact ⟨1, .found n, by rw [pqRun, hstep]⟩
    | exhausted => exact ⟨1, .nopath, by rw [pqRun, hstep]⟩
    | keyError => exact ⟨1, .keyError, by rw [pqRun, hstep]⟩
    | next c2 =>
      have := (pq_sinv_measure_next prob costF S hS hstep hsinv).2
      omega
  | succ m ih =>
    intro c hm hsinv
    cases hstep : pqStep prob costF c with
    | found n => exact ⟨1, .found n, by rw [pqRun, hstep]⟩
    | exhausted => exact ⟨1, .nopath, by rw [pqRun, hstep]⟩
    | keyError => exact ⟨1, .keyError, by rw [pqRun, hstep]⟩
    | next c2 =>
      obtain ⟨hsinv2, hdec⟩ := pq_sinv_measure_next prob costF S hS hstep hsinv
      obtain ⟨fuel, o, ho⟩ := ih c2 (by omega) hsinv2
      exact ⟨fuel + 1, o, by rw [pqRun, hstep]; exact ho⟩

/-! ## Outcomes on goal-free problems (claims C7 and C8) -/

/-- Inversion of a UCS/A* iteration that returns a node. -/
theorem pqStep_found_inv [DecidableEq α] (prob : Problem α)
    (costF : Node α → α → ℤ) (c : PQConfig α) (n : Node α)
    (h : pqStep prob costF c = .found n) :
    ∃ fr1, heappop c.frontier = some (n, fr1) ∧ prob.goal_test n.state = true := by
  rw [pqStep] at h
  cases hp : heappop c.frontier with
  | none => rw [hp] at h; exact absurd h (by intro hh; cases hh)
  | some pr =>
    obtain ⟨node, fr1⟩ := pr
    rw [hp] at h
    simp only at h
    by_cases hmem : (node.state, node.cost) ∈ c.frontier_states
    · rw [if_pos hmem] at h
      by_cases hg : prob.goal_test node.state = true
      · rw [if_pos hg] at h
        cases h
        exact ⟨fr1, rfl, hg⟩
      · rw [if_neg hg] at h; exact absurd h (by intro hh; cases hh)
    · rw [if_neg hmem] at h; exact absurd h (by intro hh; cases hh)

/-- Inversion of a BFS/DFS iteration that returns a node. -/
theorem fifoStep_found_inv [DecidableEq α] (pushLeft : Bool) (prob : Problem α)
    (c : FifoConfig α) (n : Node α)
    (h : fifoStep pushLeft prob c = .found n) :
    c.frontier.getLast? = some n ∧ prob.goal_test n.state = true := by
  rw [fifoStep] at h
  cases hp : c.frontier.getLast? with
  | none => rw [hp] at h; exact absurd h (by intro hh; cases hh)
  | some node =>
    rw [hp] at h
    simp only at h
    by_cases hmem : node.state ∈ c.frontier_states
    · rw [if_pos hmem] at h
      by_cases hg : prob.goal_test node.state = true
      · rw [if_pos hg] at h
        cases h
        exact ⟨rfl, hg⟩
      · rw [if_neg hg] at h; exact absurd h (by intro hh; cases hh)
    · rw [if_neg hmem] at h; exact absurd h (by intro hh; cases hh)

/-- On a problem whose universe contains no goal state, a UCS/A* run can
only end in the not-found value or in `KeyError`. -/
theorem pqRun_no_goal [DecidableEq α] (prob : Problem α) (costF : Node α → α → ℤ)
    (S : Finset α) (hS : ClosedUniverse prob S)
    (hgoal : ∀ s ∈ S, prob.goal_test s = false) :
    ∀ (fuel : ℕ) (c : PQConfig α) (o : Outcome α), PqSInv S c →
      pqRun prob costF fuel c = some o → o = .nopath ∨ o = .keyError := by
  intro fuel
  induction fuel with
  | zero => intro c o _ h; exact absurd h (by simp [pqRun])
  | succ fuel ih =>
    intro c o hsinv h
    rw [pqRun] at h
    cases hstep : pqStep prob costF c with
    | found n =>
      obtain ⟨fr1, hp, hg⟩ := pqStep_found_inv prob costF c n hstep
      have hperm : List.Perm c.frontier (n :: fr1) :=
        Multiset.coe_eq_coe.mp (heappop_coe _ _ _ hp)
      have hnF : n ∈ c.frontier := hperm.mem_iff.mpr (List.mem_cons_self _ _)
      have hnS : n.state ∈ S :=
        (hsinv n hnF).2.1 n.state (Node.state_mem_stateChain n)
      rw [hgoal n.state hnS] at hg
      cases hg
    | exhausted =>
      rw [hstep] at h
      exact Or.inl (Option.some.inj h).symm
    | keyError =>
      rw [hstep] at h
      exact Or.inr (Option.some.inj h).symm
    | next c2 =>
      rw [hstep] at h
      exact ih c2 o (pq_sinv_measure_next prob costF S hS hstep hsinv).1 h

/-- On a problem whose universe contains no goal state, a BFS/DFS run ends
in the not-found value. -/
theorem fifoRun_no_goal [DecidableEq α] (pushLeft : Bool) (prob : Problem α)
    (S : Finset α) (hS : ClosedUniverse prob S)
    (hgoal : ∀ s ∈ S, prob.goal_test s = false) :
    ∀ (fuel : ℕ) (c : FifoConfig α) (o : Outcome α), FifoSInv S c → FifoInv c →
      fifoRun pushLeft prob fuel c = some o → o = .nopath := by
  intro fuel
  induction fuel with
  | zero => intro c o _ _ h; exact absurd h (by simp [fifoRun])
  | succ fuel ih =>
    intro c o hsinv hinv h
    rw [fifoRun] at h
    cases hstep : fifoStep pushLeft prob c with
    | found n =>
      obtain ⟨hlast, hg⟩ := fifoStep_found_inv pushLeft prob c n hstep
      have hsplit : c.frontier.dropLast ++ [n] = c.frontier :=
        List.dropLast_append_getLast? n hlast
      have hnF : n ∈ c.frontier := by
        rw [← hsplit]
        exact List.mem_append_right _ (List.mem_singleton.mpr rfl)
      have hnS : n.state ∈ S := hsinv.1 n hnF
      rw [hgoal n.state hnS] at hg
      cases hg
    | exhausted =>
      rw [hstep] at h
      exact (Option.some.inj h).symm
    | keyError =>
      exact absurd hstep (fifo_inv_no_keyError pushLeft prob c hinv)
    | next c2 =>
      rw [hstep] at h
      exact ih c2 o (fifo_sinv_measure_next pushLeft prob S hS hstep hsinv).1
        (fifo_inv_next pushLeft prob hstep hinv).1 h

/-- With the C9 invariant, a completed BFS/DFS run ends in a found node or
the not-found value — never in the `KeyError` outcome. -/
theorem fifoRun_not_keyError [DecidableEq α] (pushLeft : Bool) (prob : Problem α) :
    ∀ (fuel : ℕ) (c : FifoConfig α) (o : Outcome α), FifoInv c →
      fifoRun pushLeft prob fuel c = some o →
      (∃ n, o = .found n) ∨ o = .nopath := by
  intro fuel
  induction fuel with
  | zero =>
    intro c o _ h
    exact absurd h (by simp [fifoRun])
  | succ fuel ih =>
    intro c o hinv h
    rw [fifoRun] at h
    cases hstep : fifoStep pushLeft prob c with
    | found n =>
      rw [hstep] at h
      exact Or.inl ⟨n, (Option.some.inj h).symm⟩
    | exhausted =>
      rw [hstep] at h
      exact Or.inr (Option.some.inj h).symm
    | keyError => exact absurd hstep (fifo_inv_no_keyError pushLeft prob c hinv)
    | next c2 =>
      rw [hstep] at h
      exact ih c2 o (fifo_inv_next pushLeft prob hstep hinv).1 h

/-- **C7** (amended).  For every problem with a finite successor-closed
universe (hence finitely many reachable states and finite action sets) and
non-negative step costs, each of the four search functions terminates: there
is enough fuel for the embedded loop to return an outcome rather than
running forever.  BFS and DFS end in a found node or the not-found value
(never `KeyError`); UCS and A* end in a found node, the not-found value, or
the `KeyError` raise (via the duplicated-pair slip).  The termination
measures are `fifoMeasure` and `pqMeasure`. -/
theorem C7_amended_all_searches_terminate [DecidableEq α] (prob : Problem α)
    (S : Finset α) (hS : ClosedUniverse prob S) (_hnn : NonnegSteps prob) :
    (∃ fuel o, breadth_first_graph_search prob fuel = some o ∧
      ((∃ n, o = Outcome.found n) ∨ o = Outcome.nopath)) ∧
    (∃ fuel o, depth_first_graph_search prob fuel = some o ∧
      ((∃ n, o = Outcome.found n) ∨ o = Outcome.nopath)) ∧
    (∃ fuel o, uniform_cost_search prob fuel = some o ∧
      ((∃ n, o = Outcome.found n) ∨ o = Outcome.nopath ∨ o = Outcome.keyError)) ∧
    (∀ locations : α → Location, ∃ fuel o,
      a_star_search prob locations fuel = some o ∧
      ((∃ n, o = Outcome.found n) ∨ o = Outcome.nopath ∨ o = Outcome.keyError)) := by
  have hfifo : ∀ pushLeft, ∃ fuel o,
      fifoRun pushLeft prob fuel (fifoInit prob) = some o ∧
      ((∃ n, o = Outcome.found n) ∨ o = Outcome.nopath) := by
    intro pushLeft
    obtain ⟨fuel, o, ho⟩ := fifoRun_terminates pushLeft prob S hS
      (fifoMeasure S (fifoInit prob)) (fifoInit prob) (Nat.le_refl _)
      (fifo_sinv_init prob S hS)
    exact ⟨fuel, o, ho,
      fifoRun_not_keyError pushLeft prob fuel (fifoInit prob) o
        (fifo_inv_init prob) ho⟩
  have htri : ∀ o : Outcome α,
      (∃ n, o = Outcome.found n) ∨ o = Outcome.nopath ∨ o = Outcome.keyError := by
    intro o
    cases o with
    | found n => exact Or.inl ⟨n, rfl⟩
    | nopath => exact Or.inr (Or.inl rfl)
    | keyError => exact Or.inr (Or.inr rfl)
  refine ⟨hfifo true, hfifo false, ?_, ?_⟩
  · obtain ⟨fuel, o, ho⟩ := pqRun_terminates prob (ucsCost prob) S hS
      (pqMeasure (branchBound prob S) S.card (pqInit prob).frontier)
      (pqInit prob) (Nat.le_refl _) (pq_sinv_init prob S hS)
    exact ⟨fuel, o, ho, htri o⟩
  · intro locations
    obtain ⟨fuel, o, ho⟩ := pqRun_terminates prob (astarCost prob locations) S hS
      (pqMeasure (branchBound prob S) S.card (pqInit prob).frontier)
      (pqInit prob) (Nat.le_refl _) (pq_sinv_init prob S hS)
    exact ⟨fuel, o, ho, htri o⟩

/-- Witness for `C7_amended_all_searches_terminate` on `trivial_problem`
with universe `{"A"}`. -/
theorem C7_amended_witness :
    (∃ fuel o, breadth_first_graph_search trivial_problem fuel = some o ∧
      ((∃ n, o = Outcome.found n) ∨ o = Outcome.nopath)) ∧
    (∃ fuel o, depth_first_graph_search trivial_problem fuel = some o ∧
      ((∃ n, o = Outcome.found n) ∨ o = Outcome.nopath)) ∧
    (∃ fuel o, uniform_cost_search trivial_problem fuel = some o ∧
      ((∃ n, o = Outcome.found n) ∨ o = Outcome.nopath ∨ o = Outcome.keyError)) ∧
    (∀ locations : String → Location, ∃ fuel o,
      a_star_search trivial_problem locations fuel = some o ∧
      ((∃ n, o = Outcome.found n) ∨ o = Outcome.nopath ∨ o = Outcome.keyError)) :=
  C7_amended_all_searches_terminate trivial_problem {"A"}
    ⟨by decide, fun s _ t ht => absurd ht (List.not_mem_nil t)⟩
    (fun c _ _ _ => by show c ≤ c + 1; omega)

/-- **C8** (amended).  For every finite problem on which no state of the
closed universe passes the goal test (in particular: no reachable goal),
`breadth_first_graph_search` and `depth_first_graph_search` exhaust the
frontier and return the explicit not-found value; `uniform_cost_search` and
`a_star_search` terminate with either the not-found value or the `KeyError`
raise; none of the four returns a node. -/
theorem C8_amended_unreachable_goal [DecidableEq α] (prob : Problem α)
    (S : Finset α) (hS : ClosedUniverse prob S)
    (hgoal : ∀ s ∈ S, prob.goal_test s = false) :
    (∃ fuel, breadth_first_graph_search prob fuel = some .nopath) ∧
    (∃ fuel, depth_first_graph_search prob fuel = some .nopath) ∧
    (∃ fuel o, uniform_cost_search prob fuel = some o ∧
      (o = .nopath ∨ o = .keyError)) ∧
    (∀ locations : α → Location, ∃ fuel o,
      a_star_search prob locations fuel = some o ∧
      (o = .nopath ∨ o = .keyError)) := by
  have hfifo : ∀ pushLeft, ∃ fuel,
      fifoRun pushLeft prob fuel (fifoInit prob) = some (.nopath) := by
    intro pushLeft
    obtain ⟨fuel, o, ho⟩ := fifoRun_terminates pushLeft prob S hS
      (fifoMeasure S (fifoInit prob)) (fifoInit prob) (Nat.le_refl _)
      (fifo_sinv_init prob S hS)
    have := fifoRun_no_goal pushLeft prob S hS hgoal fuel (fifoInit prob) o
      (fifo_sinv_init prob S hS) (fifo_inv_init prob) ho
    subst this
    exact ⟨fuel, ho⟩
  refine ⟨hfifo true, hfifo false, ?_, ?_⟩
  · obtain ⟨fuel, o, ho⟩ := pqRun_terminates prob (ucsCost prob) S hS
      (pqMeasure (branchBound prob S) S.card (pqInit prob).frontier)
      (pqInit prob) (Nat.le_refl _) (pq_sinv_init prob S hS)
    exact ⟨fuel, o, ho,
      pqRun_no_goal prob (ucsCost prob) S hS hgoal fuel (pqInit prob) o
        (pq_sinv_init prob S hS) ho⟩
  · intro locations
    obtain ⟨fuel, o, ho⟩ := pqRun_terminates prob (astarCost prob locations) S hS
      (pqMeasure (branchBound prob S) S.card (pqInit prob).frontier)
      (pqInit prob) (Nat.le_refl _) (pq_sinv_init prob S hS)
    exact ⟨fuel, o, ho,
      pqRun_no_goal prob (astarCost prob locations) S hS hgoal fuel (pqInit prob) o
        (pq_sinv_init prob S hS) ho⟩

/-- Witness for `C8_amended_unreachable_goal` on `trivial_problem` (its goal
test is identically false). -/
theorem C8_amended_witness :
    (∃ fuel, breadth_first_graph_search trivial_problem fuel = some .nopath) ∧
    (∃ fuel, depth_first_graph_search trivial_problem fuel = some .nopath) ∧
    (∃ fuel o, uniform_cost_search trivial_problem fuel = some o ∧
      (o = .nopath ∨ o = .keyError)) ∧
    (∀ locations : String → Location, ∃ fuel o,
      a_star_search trivial_problem locations fuel = some o ∧
      (o = .nopath ∨ o = .keyError)) :=
  C8_amended_unreachable_goal trivial_problem {"A"}
    ⟨by decide, fun s _ t ht => absurd ht (List.not_mem_nil t)⟩
    (fun _ _ => rfl)

/-! ## Routes, edge-count distance and chain geometry (for claim C5) -/

theorem endOf_nil (s : α) : endOf s ([] : List α) = s := rfl

theorem endOf_cons (s u : α) (r : List α) : endOf s (u :: r) = endOf u r := by
  rw [endOf, endOf, List.getLastD_cons]

theorem endOf_append_singleton (s t : α) (l : List α) : endOf s (l ++ [t]) = t := by
  rw [endOf, List.getLastD_concat]

theorem getLast?_cons_endOf (s : α) : ∀ l : List α, (s :: l).getLast? = some (endOf s l)
  | [] => rfl
  | t :: r => by rw [List.getLast?_cons_cons, endOf_cons]; exact getLast?_cons_endOf t r

theorem IsPathFrom_append_singleton (prob : Problem α) :
    ∀ (s : α) (l : List α) (t : α), IsPathFrom prob s (l ++ [t]) →
      IsPathFrom prob s l ∧ t ∈ prob.actions (endOf s l)
  | s, [], t, h => ⟨trivial, h.1⟩
  | s, u :: r, t, h => by
    obtain ⟨h1, h2⟩ := h
    obtain ⟨h3, h4⟩ := IsPathFrom_append_singleton prob u r t h2
    exact ⟨⟨h1, h3⟩, by rw [endOf_cons]; exact h4⟩

theorem IsPathFrom_append_one (prob : Problem α) :
    ∀ (s : α) (l : List α) (t : α), IsPathFrom prob s l →
      t ∈ prob.actions (endOf s l) → IsPathFrom prob s (l ++ [t])
  | s, [], t, _, ht => ⟨ht, trivial⟩
  | s, u :: r, t, h, ht => by
    obtain ⟨h1, h2⟩ := h
    rw [endOf_cons] at ht
    exact ⟨h1, IsPathFrom_append_one prob u r t h2 ht⟩

theorem Node.stateChain_cons (n : Node α) :
    n.stateChain = n.state :: n.stateChain.tail := by
  cases n with
  | mk s c a p => cases p <;> rfl

theorem Node.stateChain_length_pos (n : Node α) : 0 < n.stateChain.length := by
  rw [n.stateChain_cons]
  simp

theorem Node.path_length : ∀ n : Node α, n.path.length = n.stateChain.length
  | .mk _ _ _ none => rfl
  | .mk s c a (some p) => by
    rw [Node.path, Node.stateChain]
    simp [Node.path_length p]

theorem Node.depth_child (t : α) (co : ℤ) (a : Option α) (p : Node α) :
    (Node.mk t co a (some p)).depth = p.depth + 1 := by
  have hpos := p.stateChain_length_pos
  rw [Node.depth, Node.depth]
  show (t :: p.stateChain).length - 1 = p.stateChain.length - 1 + 1
  rw [List.length_cons]
  omega

theorem Node.routeOK_parts (prob : Problem α) (n : Node α) (h : n.routeOK prob) :
    ∃ l, n.stateChain.reverse = prob.initial :: l ∧ IsPathFrom prob prob.initial l ∧
      endOf prob.initial l = n.state ∧ l.length = n.depth := by
  obtain ⟨l, hrev, hpath⟩ := h
  refine ⟨l, hrev, hpath, ?_, ?_⟩
  · have h1 : n.stateChain.reverse.getLast? = some n.state := by
      rw [List.getLast?_reverse]
      rw [n.stateChain_cons]
      rfl
    rw [hrev, getLast?_cons_endOf] at h1
    exact Option.some.inj h1
  · have h1 : n.stateChain.reverse.length = l.length + 1 := by
      rw [hrev]
      rfl
    rw [List.length_reverse] at h1
    rw [Node.depth]
    omega

theorem Node.routeOK_reaches (prob : Problem α) (n : Node α) (h : n.routeOK prob) :
    Reaches prob n.state n.depth := by
  obtain ⟨l, _, hpath, hend, hlen⟩ := n.routeOK_parts prob h
  exact ⟨l, hpath, hlen, hend⟩

theorem Node.routeOK_child (prob : Problem α) (node : Node α) (t : α) (co : ℤ)
    (a : Option α) (hro : node.routeOK prob) (ht : t ∈ prob.actions node.state) :
    (Node.mk t co a (some node)).routeOK prob := by
  obtain ⟨l, hrev, hpath, hend, _⟩ := node.routeOK_parts prob hro
  refine ⟨l ++ [t], ?_, ?_⟩
  · show (t :: node.stateChain).reverse = prob.initial :: (l ++ [t])
    rw [List.reverse_cons, hrev]
    rfl
  · exact IsPathFrom_append_one prob _ l t hpath (hend ▸ ht)

theorem bfsDist_le (prob : Problem α) (t : α) (m : ℕ) (h : Reaches prob t m) :
    bfsDist prob t ≤ m := Nat.sInf_le h

theorem bfsDist_reaches (prob : Problem α) (t : α) (m : ℕ) (h : Reaches prob t m) :
    Reaches prob t (bfsDist prob t) := by
  have hne : (setOf fun k => Reaches prob t k).Nonempty := ⟨m, h⟩
  have hmem := Nat.sInf_mem hne
  exact hmem

theorem reaches_initial (prob : Problem α) : Reaches prob prob.initial 0 :=
  ⟨[], trivial, rfl, rfl⟩

theorem bfsDist_initial (prob : Problem α) : bfsDist prob prob.initial = 0 :=
  Nat.le_zero.mp (bfsDist_le prob _ 0 (reaches_initial prob))

theorem reaches_step (prob : Problem α) (u t : α) (m : ℕ) (h : Reaches prob u m)
    (ht : t ∈ prob.actions u) : Reaches prob t (m + 1) := by
  obtain ⟨l, hpath, hlen, hend⟩ := h
  exact ⟨l ++ [t], IsPathFrom_append_one prob _ l t hpath (hend ▸ ht),
    by simp [hlen], endOf_append_singleton _ _ _⟩

/-! ## BFS level structure (for claim C5) -/

theorem levels_min (dep : List ℕ) (d a b : ℕ)
    (hdep : dep = List.replicate b (d + 1) ++ List.replicate a d) :
    ∀ x ∈ dep, d ≤ x := by
  intro x hx
  rw [hdep] at hx
  rcases List.mem_append.mp hx with hx | hx
  · have := List.eq_of_mem_replicate hx
    omega
  · have := List.eq_of_mem_replicate hx
    omega

theorem levels_getLast (dep : List ℕ) (d a b : ℕ)
    (hdep : dep = List.replicate b (d + 1) ++ List.replicate a d) (ha : 1 ≤ a) :
    dep.getLast? = some d := by
  have ha2 : a = (a - 1) + 1 := by omega
  rw [hdep, ha2, List.replicate_succ' (a - 1) d, ← List.append_assoc,
    List.getLast?_concat]

theorem levels_normalize (dep : List ℕ) (hne : dep ≠ [])
    (h : ∃ d a b, dep = List.replicate b (d + 1) ++ List.replicate a d) :
    ∃ d a b, dep = List.replicate b (d + 1) ++ List.replicate a d ∧ 1 ≤ a := by
  obtain ⟨d, a, b, hdep⟩ := h
  cases a with
  | zero =>
    rw [List.replicate, List.append_nil] at hdep
    cases b with
    | zero => exact absurd hdep hne
    | succ b =>
      refine ⟨d + 1, b + 1, 0, ?_, by omega⟩
      rw [List.replicate, List.nil_append]
      exact hdep
  | succ a => exact ⟨d, a + 1, b, hdep, by omega⟩

/-- The key level lemma: if every frontier node has depth at least `d`, then
every state reachable in fewer than `d` edges is already explored. -/
theorem bfs_all_closer_explored [DecidableEq α] (prob : Problem α)
    (c : FifoConfig α) (hinv : FifoInv c) (hdisc : DiscInv prob c)
    (hlev : BfsLevels prob c) (d : ℕ)
    (hmin : ∀ n ∈ c.frontier, d ≤ n.depth) :
    ∀ m, m < d → ∀ s, Reaches prob s m → s ∈ c.explored := by
  have hfs_case : ∀ u, u ∈ c.frontier_states → d ≤ bfsDist prob u := by
    intro u hu
    rw [hinv.2.1, List.mem_toFinset] at hu
    obtain ⟨n2, hn2, hstate⟩ := List.mem_map.mp hu
    have hdist := (hlev.1 n2 hn2).2
    rw [hstate] at hdist
    rw [hdist]
    exact hmin n2 hn2
  intro m
  induction m using Nat.strong_induction_on with
  | _ m ih =>
    intro hm s hs
    obtain ⟨l, hpath, hlen, hend⟩ := hs
    by_cases hl : l = []
    · subst hl
      have hs0 : s = prob.initial := hend.symm
      subst hs0
      rcases hdisc.1 with he | hfs
      · exact he
      · have h1 := hfs_case _ hfs
        have h2 := bfsDist_initial prob
        omega
    · have hsplit := List.dropLast_append_getLast hl
      have hpathl := hpath
      rw [← hsplit] at hpathl
      obtain ⟨hpath1, hact⟩ := IsPathFrom_append_singleton prob _ _ _ hpathl
      have hendt : endOf prob.initial l = l.getLast hl := by
        conv_lhs => rw [← hsplit]
        rw [endOf_append_singleton]
      have hst : l.getLast hl = s := by rw [← hendt, hend]
      rw [hst] at hact
      have hlpos : 0 < l.length := List.length_pos.mpr hl
      have hlen1 : l.dropLast.length = m - 1 := by
        rw [List.length_dropLast]
        omega
      have hu : Reaches prob (endOf prob.initial l.dropLast) (m - 1) :=
        ⟨l.dropLast, hpath1, hlen1, rfl⟩
      have hexp := ih (m - 1) (by omega) (by omega) _ hu
      rcases hdisc.2.1 _ hexp s hact with he | hfs
      · exact he
      · have h1 := hfs_case s hfs
        have h2 : bfsDist prob s ≤ m := bfsDist_le prob s m ⟨l, hpath, hlen, hend⟩
        omega

theorem fifoConsider_fs_mono [DecidableEq α] (prob : Problem α) (pushLeft : Bool)
    (node : Node α) (E1 : Finset α) (acc : List (Node α) × Finset α × List α)
    (t : α) : acc.2.1 ⊆ (fifoConsider prob pushLeft node E1 acc t).2.1 := by
  rw [fifoConsider]
  split
  next => exact Finset.subset_insert t acc.2.1
  next => exact Finset.Subset.refl _

theorem fifoExpand_fs_mono [DecidableEq α] (prob : Problem α) (pushLeft : Bool)
    (node : Node α) (E1 : Finset α) :
    ∀ (ts : List α) (acc : List (Node α) × Finset α × List α),
      acc.2.1 ⊆ (ts.foldl (fifoConsider prob pushLeft node E1) acc).2.1
  | [], _ => Finset.Subset.refl _
  | t :: ts, acc =>
    Finset.Subset.trans (fifoConsider_fs_mono prob pushLeft node E1 acc t)
      (fifoExpand_fs_mono prob pushLeft node E1 ts _)

/-- Every neighbor handled by the BFS/DFS inner loop ends up either in the
explored set used for the test or in the final `frontier_states`. -/
theorem fifoExpand_covers [DecidableEq α] (prob : Problem α) (pushLeft : Bool)
    (node : Node α) (E1 : Finset α) :
    ∀ (ts : List α) (acc : List (Node α) × Finset α × List α), ∀ t ∈ ts,
      t ∈ E1 ∨ t ∈ (ts.foldl (fifoConsider prob pushLeft node E1) acc).2.1 := by
  intro ts
  induction ts with
  | nil => intro acc t ht; cases ht
  | cons u ts ih =>
    intro acc t ht
    rcases List.mem_cons.mp ht with heq | ht2
    · subst heq
      by_cases hE : t ∈ E1
      · exact Or.inl hE
      · refine Or.inr ?_
        have h1 : t ∈ (fifoConsider prob pushLeft node E1 acc t).2.1 := by
          rw [fifoConsider]
          by_cases hfs : t ∉ acc.2.1
          · rw [if_pos ⟨hE, hfs⟩]
            exact Finset.mem_insert_self t acc.2.1
          · rw [if_neg fun hc => hfs hc.2]
            exact not_not.mp hfs
        rw [List.foldl_cons]
        exact fifoExpand_fs_mono prob pushLeft node E1 ts _ h1
    · rw [List.foldl_cons]
      exact ih _ t ht2

/-- A normally completed BFS/DFS iteration preserves the discovery
invariant. -/
theorem fifo_disc_next [DecidableEq α] (pushLeft : Bool) (prob : Problem α)
    {c c2 : FifoConfig α} (hstep : fifoStep pushLeft prob c = .next c2)
    (hdisc : DiscInv prob c) : DiscInv prob c2 := by
  obtain ⟨node, hlast, hmem, hg, hfr, hfs, hex⟩ :=
    fifoStep_next_inv pushLeft prob c c2 hstep
  have hfs2 : c2.frontier_states = ((prob.actions node.state).foldl
      (fifoConsider prob pushLeft node (insert node.state c.explored))
      (c.frontier.dropLast, c.frontier_states.erase node.state,
        ([] : List α))).2.1 := hfs
  have hmono : c.frontier_states.erase node.state ⊆ c2.frontier_states := by
    rw [hfs2]
    exact fifoExpand_fs_mono prob pushLeft node (insert node.state c.explored)
      (prob.actions node.state)
      (c.frontier.dropLast, c.frontier_states.erase node.state, ([] : List α))
  have hcover : ∀ t ∈ prob.actions node.state,
      t ∈ insert node.state c.explored ∨ t ∈ c2.frontier_states := by
    intro t ht
    rw [hfs2]
    exact fifoExpand_covers prob pushLeft node _ _ _ t ht
  refine ⟨?_, ?_, ?_⟩
  · rcases hdisc.1 with he | hf
    · left
      rw [hex]
      exact Finset.mem_insert_of_mem he
    · by_cases hni : prob.initial = node.state
      · left
        rw [hex, hni]
        exact Finset.mem_insert_self _ _
      · right
        exact hmono (Finset.mem_erase.mpr ⟨hni, hf⟩)
  · intro s hs t ht
    rw [hex] at hs
    rcases Finset.mem_insert.mp hs with hseq | hsc
    · rw [hseq] at ht
      rcases hcover t ht with hE | hF
      · left
        rw [hex]
        exact hE
      · right
        exact hF
    · rcases hdisc.2.1 s hsc t ht with hE | hF
      · left
        rw [hex]
        exact Finset.mem_insert_of_mem hE
      · by_cases hts : t = node.state
        · left
          rw [hex, hts]
          exact Finset.mem_insert_self _ _
        · right
          exact hmono (Finset.mem_erase.mpr ⟨hts, hF⟩)
  · intro s hs
    rw [hex] at hs
    rcases Finset.mem_insert.mp hs with hseq | hsc
    · rw [hseq]
      exact hg
    · exact hdisc.2.2 s hsc

/-- A normally completed BFS iteration (`pushLeft = true`) preserves the
level invariant: every pushed child sits exactly one level below the popped
node, and its stored depth is the true edge-count distance of its state. -/
theorem bfs_levels_next [DecidableEq α] (prob : Problem α) {c c2 : FifoConfig α}
    (hstep : fifoStep true prob c = .next c2) (hinv : FifoInv c)
    (hdisc : DiscInv prob c) (hlev : BfsLevels prob c) : BfsLevels prob c2 := by
  obtain ⟨node, hlast, hmem, hg, hfr, hfs, hex⟩ :=
    fifoStep_next_inv true prob c c2 hstep
  have hsplit : c.frontier.dropLast ++ [node] = c.frontier :=
    List.dropLast_append_getLast? node hlast
  have hnode_in : node ∈ c.frontier := by
    rw [← hsplit]
    exact List.mem_append_right _ (List.mem_singleton.mpr rfl)
  have hfne : c.frontier ≠ [] := by
    intro h
    rw [h] at hlast
    simp at hlast
  have hdepne : c.frontier.map Node.depth ≠ [] := by
    intro h
    exact hfne (List.map_eq_nil.mp h)
  obtain ⟨d, a, b, hdep, ha⟩ := levels_normalize _ hdepne hlev.2
  have hnd : node.depth = d := by
    have h1 := levels_getLast _ d a b hdep ha
    have h2 : (c.frontier.map Node.depth).getLast? = some node.depth := by
      conv_lhs => rw [← hsplit]
      rw [List.map_append]
      show (List.map Node.depth c.frontier.dropLast ++
        [node.depth]).getLast? = some node.depth
      exact List.getLast?_concat _
    rw [h1] at h2
    exact (Option.some.inj h2).symm
  have hmin : ∀ n ∈ c.frontier, d ≤ n.depth := fun n hn =>
    levels_min _ d a b hdep _ (List.mem_map_of_mem Node.depth hn)
  have hclose := bfs_all_closer_explored prob c hinv hdisc hlev d hmin
  have hnodeRoute : node.routeOK prob := (hlev.1 node hnode_in).1
  have hdrop : c.frontier.dropLast.map Node.depth =
      List.replicate b (d + 1) ++ List.replicate (a - 1) d := by
    have h1 : c.frontier.dropLast.map Node.depth ++ [node.depth] =
        List.replicate b (d + 1) ++ List.replicate a d := by
      rw [← hdep]
      conv_rhs => rw [← hsplit]
      rw [List.map_append]
      rfl
    have ha2 : a = (a - 1) + 1 := by omega
    rw [hnd, ha2, List.replicate_succ' (a - 1) d, ← List.append_assoc] at h1
    have h2 := congrArg List.dropLast h1
    rwa [List.dropLast_concat, List.dropLast_concat] at h2
  have hstepP : ∀ (acc : List (Node α) × Finset α × List α) (t : α),
      t ∈ prob.actions node.state →
      ((∀ n ∈ acc.1, Node.routeOK prob n ∧ bfsDist prob n.state = n.depth) ∧
        (∃ k, acc.1.map Node.depth = List.replicate k (d + 1) ++
          (List.replicate b (d + 1) ++ List.replicate (a - 1) d)) ∧
        c.frontier_states.erase node.state ⊆ acc.2.1) →
      ((∀ n ∈ (fifoConsider prob true node (insert node.state c.explored) acc t).1,
          Node.routeOK prob n ∧ bfsDist prob n.state = n.depth) ∧
        (∃ k, (fifoConsider prob true node (insert node.state c.explored) acc
            t).1.map Node.depth = List.replicate k (d + 1) ++
          (List.replicate b (d + 1) ++ List.replicate (a - 1) d)) ∧
        c.frontier_states.erase node.state ⊆
          (fifoConsider prob true node (insert node.state c.explored) acc t).2.1) := by
    intro acc t ht hP
    obtain ⟨hG, ⟨k, hk⟩, hsub⟩ := hP
    rw [fifoConsider]
    split
    next hcond =>
      simp only
      have hreach : Reaches prob t (d + 1) := by
        have h1 := Node.routeOK_reaches prob node hnodeRoute
        rw [hnd] at h1
        exact reaches_step prob node.state t d h1 ht
      have hdist : bfsDist prob t = d + 1 := by
        have hle : bfsDist prob t ≤ d + 1 := bfsDist_le prob t (d + 1) hreach
        have hrm : Reaches prob t (bfsDist prob t) :=
          bfsDist_reaches prob t (d + 1) hreach
        by_contra hne2
        rcases Nat.lt_or_ge (bfsDist prob t) d with hlt2 | hge
        · exact hcond.1 (Finset.mem_insert_of_mem (hclose _ hlt2 t hrm))
        · have heq : bfsDist prob t = d := by omega
          rw [heq] at hrm
          have htn : t ≠ node.state := by
            intro hh
            exact hcond.1 (hh ▸ Finset.mem_insert_self node.state c.explored)
          by_cases hd0 : d = 0
          · rw [hd0] at hrm
            obtain ⟨l, hlp, hll, hle2⟩ := hrm
            have hl0 : l = [] := List.eq_nil_of_length_eq_zero hll
            rw [hl0] at hle2
            have hti : prob.initial = t := hle2
            rcases hdisc.1 with hie | hif
            · exact hcond.1 (Finset.mem_insert_of_mem (hti ▸ hie))
            · exact hcond.2 (hsub (Finset.mem_erase.mpr ⟨htn, hti ▸ hif⟩))
          · obtain ⟨l, hlp, hll, hle2⟩ := hrm
            have hlne : l ≠ [] := by
              intro hh
              rw [hh] at hll
              exact hd0 hll.symm
            have hsplit2 := List.dropLast_append_getLast hlne
            have hlpl := hlp
            rw [← hsplit2] at hlpl
            obtain ⟨hp1, hact1⟩ := IsPathFrom_append_singleton prob _ _ _ hlpl
            have hendt : endOf prob.initial l = l.getLast hlne := by
              conv_lhs => rw [← hsplit2]
              rw [endOf_append_singleton]
            have hgt : l.getLast hlne = t := by rw [← hendt, hle2]
            rw [hgt] at hact1
            have hu : Reaches prob (endOf prob.initial l.dropLast) (d - 1) :=
              ⟨l.dropLast, hp1, by rw [List.length_dropLast, hll], rfl⟩
            have huexp := hclose (d - 1) (by omega) _ hu
            rcases hdisc.2.1 _ huexp t hact1 with hte | htf
            · exact hcond.1 (Finset.mem_insert_of_mem hte)
            · exact hcond.2 (hsub (Finset.mem_erase.mpr ⟨htn, htf⟩))
      have hpush : fifoPush true
          (Node.mk t (prob.path_cost node.cost node.state none t) (some t)
            (some node)) acc.1 =
          Node.mk t (prob.path_cost node.cost node.state none t) (some t)
            (some node) :: acc.1 := rfl
      refine ⟨?_, ⟨k + 1, ?_⟩, ?_⟩
      · intro n hn
        rw [hpush] at hn
        rcases List.mem_cons.mp hn with heqn | hn2
        · rw [heqn]
          refine ⟨Node.routeOK_child prob node t _ _ hnodeRoute ht, ?_⟩
          rw [Node.depth_child]
          show bfsDist prob t = node.depth + 1
          rw [hnd]
          exact hdist
        · exact hG n hn2
      · rw [hpush, List.map_cons, Node.depth_child, hnd, hk]
        simp [List.replicate_succ]
      · exact Finset.Subset.trans hsub (Finset.subset_insert t acc.2.1)
    next =>
      exact ⟨hG, ⟨k, hk⟩, hsub⟩
  have hG0 : ∀ n ∈ c.frontier.dropLast,
      Node.routeOK prob n ∧ bfsDist prob n.state = n.depth := fun n hn =>
    hlev.1 n ((List.dropLast_sublist c.frontier).subset hn)
  have hfold := foldl_preserves_mem
    (fifoConsider prob true node (insert node.state c.explored))
    (fun acc =>
      (∀ n ∈ acc.1, Node.routeOK prob n ∧ bfsDist prob n.state = n.depth) ∧
      (∃ k, acc.1.map Node.depth = List.replicate k (d + 1) ++
        (List.replicate b (d + 1) ++ List.replicate (a - 1) d)) ∧
      c.frontier_states.erase node.state ⊆ acc.2.1)
    (prob.actions node.state) hstepP
    (c.frontier.dropLast, c.frontier_states.erase node.state, ([] : List α))
    ⟨hG0, ⟨0, by simp [hdrop]⟩, Finset.Subset.refl _⟩
  obtain ⟨hGf, ⟨k, hkf⟩, _⟩ := hfold
  have hfr2 : c2.frontier = ((prob.actions node.state).foldl
      (fifoConsider prob true node (insert node.state c.explored))
      (c.frontier.dropLast, c.frontier_states.erase node.state,
        ([] : List α))).1 := hfr
  constructor
  · intro n hn
    rw [hfr2] at hn
    exact hGf n hn
  · refine ⟨d, a - 1, k + b, ?_⟩
    rw [hfr2, hkf, ← List.append_assoc, ← List.replicate_add]

theorem fifoStep_exhausted_inv [DecidableEq α] (pushLeft : Bool) (prob : Problem α)
    (c : FifoConfig α) (h : fifoStep pushLeft prob c = .exhausted) :
    c.frontier = [] := by
  rw [fifoStep] at h
  cases hp : c.frontier.getLast? with
  | none =>
    cases hc : c.frontier with
    | nil => rfl
    | cons x xs =>
      rw [hc, List.getLast?_eq_getLast_of_ne_nil (List.cons_ne_nil x xs)] at hp
      exact Option.noConfusion hp
  | some node =>
    rw [hp] at h
    simp only at h
    by_cases hmem : node.state ∈ c.frontier_states
    · rw [if_pos hmem] at h
      by_cases hg : prob.goal_test node.state = true
      · rw [if_pos hg] at h
        cases h
      · rw [if_neg hg] at h
        cases h
    · rw [if_neg hmem] at h
      cases h

/-- When the frontier has emptied, the discovery invariant forces the
explored set to contain every state reachable from the initial state. -/
theorem fifo_exhausted_all_explored [DecidableEq α] (prob : Problem α)
    (c : FifoConfig α) (hexh : c.frontier = []) (hinv : FifoInv c)
    (hdisc : DiscInv prob c) :
    ∀ l, IsPathFrom prob prob.initial l → endOf prob.initial l ∈ c.explored := by
  have hfs : c.frontier_states = ∅ := by
    rw [hinv.2.1, hexh]
    rfl
  have hinit : prob.initial ∈ c.explored := by
    rcases hdisc.1 with he | hf
    · exact he
    · rw [hfs] at hf
      exact absurd hf (Finset.not_mem_empty _)
  intro l
  induction l using List.reverseRecOn with
  | nil => intro _; exact hinit
  | append_singleton l t ih =>
    intro hp
    obtain ⟨hp1, hact⟩ := IsPathFrom_append_singleton prob _ _ _ hp
    have h1 := ih hp1
    rcases hdisc.2.1 _ h1 t hact with he | hf
    · rw [endOf_append_singleton]
      exact he
    · rw [hfs] at hf
      exact absurd hf (Finset.not_mem_empty _)

/-- From any configuration satisfying the three BFS invariants, a completed
run on a solvable problem returns a goal node of minimal depth. -/
theorem bfsRun_minimal [DecidableEq α] (prob : Problem α) :
    ∀ (fuel : ℕ) (c : FifoConfig α) (o : Outcome α),
      FifoInv c → DiscInv prob c → BfsLevels prob c →
      fifoRun true prob fuel c = some o →
      (∃ l, IsPathFrom prob prob.initial l ∧
        prob.goal_test (endOf prob.initial l) = true) →
      ∃ n, o = .found n ∧ Node.routeOK prob n ∧
        prob.goal_test n.state = true ∧
        ∀ l2, IsPathFrom prob prob.initial l2 →
          prob.goal_test (endOf prob.initial l2) = true →
          n.depth ≤ l2.length := by
  intro fuel
  induction fuel with
  | zero =>
    intro c o _ _ _ h _
    exact absurd h (by simp [fifoRun])
  | succ fuel ih =>
    intro c o hinv hdisc hlev h hsol
    rw [fifoRun] at h
    cases hstep : fifoStep true prob c with
    | found n =>
      rw [hstep] at h
      have ho : Outcome.found n = o := Option.some.inj h
      obtain ⟨hlast, hgoal⟩ := fifoStep_found_inv true prob c n hstep
      have hsplit : c.frontier.dropLast ++ [n] = c.frontier :=
        List.dropLast_append_getLast? n hlast
      have hnF : n ∈ c.frontier := by
        rw [← hsplit]
        exact List.mem_append_right _ (List.mem_singleton.mpr rfl)
      have hfne : c.frontier ≠ [] := by
        intro hh
        rw [hh] at hlast
        simp at hlast
      have hdepne : c.frontier.map Node.depth ≠ [] := by
        intro hh
        exact hfne (List.map_eq_nil.mp hh)
      obtain ⟨d, a, b, hdep, ha⟩ := levels_normalize _ hdepne hlev.2
      have hnd : n.depth = d := by
        have h1 := levels_getLast _ d a b hdep ha
        have h2 : (c.frontier.map Node.depth).getLast? = some n.depth := by
          conv_lhs => rw [← hsplit]
          rw [List.map_append]
          show (List.map Node.depth c.frontier.dropLast ++
            [n.depth]).getLast? = some n.depth
          exact List.getLast?_concat _
        rw [h1] at h2
        exact (Option.some.inj h2).symm
      have hmin : ∀ x ∈ c.frontier, d ≤ x.depth := fun x hx =>
        levels_min _ d a b hdep _ (List.mem_map_of_mem Node.depth hx)
      have hclose := bfs_all_closer_explored prob c hinv hdisc hlev d hmin
      refine ⟨n, ho.symm, (hlev.1 n hnF).1, hgoal, ?_⟩
      intro l2 hl2 hg2
      by_contra hlt
      push_neg at hlt
      rw [hnd] at hlt
      have hreach : Reaches prob (endOf prob.initial l2) l2.length :=
        ⟨l2, hl2, rfl, rfl⟩
      have hexp := hclose l2.length hlt _ hreach
      rw [hdisc.2.2 _ hexp] at hg2
      cases hg2
    | exhausted =>
      exfalso
      have hfe := fifoStep_exhausted_inv true prob c hstep
      obtain ⟨l, hl, hg⟩ := hsol
      have hin := fifo_exhausted_all_explored prob c hfe hinv hdisc l hl
      rw [hdisc.2.2 _ hin] at hg
      cases hg
    | keyError => exact absurd hstep (fifo_inv_no_keyError true prob c hinv)
    | next c2 =>
      rw [hstep] at h
      exact ih c2 o (fifo_inv_next true prob hstep hinv).1
        (fifo_disc_next true prob hstep hdisc)
        (bfs_levels_next prob hstep hinv hdisc hlev) h hsol

/-- **C5.**  For every problem with a finite successor-closed state universe
in which all steps have the same cost (`path_cost` always adds the same
constant) and some action sequence from the initial state reaches a state
passing the goal test, `breadth_first_graph_search` (run with enough fuel)
returns a node that carries a genuine initial-rooted route, passes the goal
test, and whose `path()` has minimal edge count — at most the length of any
action sequence from the initial state to a goal state. -/
theorem C5_bfs_minimal_edge_count [DecidableEq α] (prob : Problem α)
    (S : Finset α) (hS : ClosedUniverse prob S) (_hk : UniformSteps prob)
    (hsol : ∃ l, IsPathFrom prob prob.initial l ∧
      prob.goal_test (endOf prob.initial l) = true) :
    ∃ fuel n, breadth_first_graph_search prob fuel = some (.found n) ∧
      Node.routeOK prob n ∧ prob.goal_test n.state = true ∧
      ∀ l2, IsPathFrom prob prob.initial l2 →
        prob.goal_test (endOf prob.initial l2) = true →
        n.path.length - 1 ≤ l2.length := by
  obtain ⟨fuel, o, hrun⟩ := fifoRun_terminates true prob S hS
    (fifoMeasure S (fifoInit prob)) (fifoInit prob) (Nat.le_refl _)
    (fifo_sinv_init prob S hS)
  have hinv0 := fifo_inv_init prob
  have hdisc0 : DiscInv prob (fifoInit prob) := by
    refine ⟨Or.inr ?_, ?_, ?_⟩
    · show prob.initial ∈ ({prob.initial} : Finset α)
      exact Finset.mem_singleton_self _
    · intro s hs
      exact absurd hs (Finset.not_mem_empty s)
    · intro s hs
      exact absurd hs (Finset.not_mem_empty s)
  have hlev0 : BfsLevels prob (fifoInit prob) := by
    constructor
    · intro n hn
      have hn2 : n = Node.mk prob.initial 0 none none := List.mem_singleton.mp hn
      rw [hn2]
      refine ⟨⟨[], rfl, trivial⟩, ?_⟩
      show bfsDist prob prob.initial = (Node.mk prob.initial 0 none none).depth
      rw [bfsDist_initial]
      rfl
    · exact ⟨0, 1, 0, rfl⟩
  obtain ⟨n, ho, hroute, hgt, hmd⟩ :=
    bfsRun_minimal prob fuel (fifoInit prob) o hinv0 hdisc0 hlev0 hrun hsol
  refine ⟨fuel, n, ?_, hroute, hgt, ?_⟩
  · rw [breadth_first_graph_search, hrun, ho]
  · intro l2 h1 h2
    have h3 := hmd l2 h1 h2
    rw [Node.path_length]
    exact h3

/-- Concrete instance of the C5 theorem: on `unit_problem` (two states,
uniform unit step cost, goal reachable in one step), BFS returns a goal node
whose path length is minimal. -/
theorem C5_witness :
    ClosedUniverse unit_problem unitS ∧ UniformSteps unit_problem ∧
    (∃ l, IsPathFrom unit_problem unit_problem.initial l ∧
      unit_problem.goal_test (endOf unit_problem.initial l) = true) ∧
    ∃ fuel n, breadth_first_graph_search unit_problem fuel = some (.found n) ∧
      Node.routeOK unit_problem n ∧ unit_problem.goal_test n.state = true ∧
      ∀ l2, IsPathFrom unit_problem unit_problem.initial l2 →
        unit_problem.goal_test (endOf unit_problem.initial l2) = true →
        n.path.length - 1 ≤ l2.length := by
  have h1 : ClosedUniverse unit_problem unitS := by
    unfold ClosedUniverse unit_problem unitS
    decide
  have h2 : UniformSteps unit_problem := ⟨1, fun c s1 a s2 => rfl⟩
  have h3 : ∃ l, IsPathFrom unit_problem unit_problem.initial l ∧
      unit_problem.goal_test (endOf unit_problem.initial l) = true :=
    ⟨["G"], ⟨by decide, trivial⟩, by decide⟩
  exact ⟨h1, h2, h3, C5_bfs_minimal_edge_count unit_problem unitS h1 h2 h3⟩

/-- **C9.**  At the start of every loop iteration of
`breadth_first_graph_search` (`pushLeft = true`) and
`depth_first_graph_search` (`pushLeft = false`), `frontier_states` equals the
set of the states of the nodes in the frontier and is disjoint from
`explored`; over the whole run, the ghost multiset of all states ever
inserted into the frontier has no duplicates (each state is inserted at most
once), and the `frontier_states.remove` performed on pop never raises
`KeyError`. -/
theorem C9_fifo_frontier_invariants [DecidableEq α] (pushLeft : Bool)
    (prob : Problem α) (c : FifoConfig α) (M : Multiset α)
    (hreach : FifoReach pushLeft prob c M) :
    (c.frontier_states = (c.frontier.map Node.state).toFinset ∧
      Disjoint c.frontier_states c.explored) ∧
    M.Nodup ∧
    fifoStep pushLeft prob c ≠ .keyError := by
  obtain ⟨hinv, hM, _hcov⟩ := fifo_reach_inv pushLeft prob c M hreach
  exact ⟨⟨hinv.2.1, hinv.2.2⟩, hM, fifo_inv_no_keyError pushLeft prob c hinv⟩

/-- Witness for `C9_fifo_frontier_invariants` at the initial BFS
configuration of `trivial_problem`. -/
theorem C9_witness :
    (((fifoInit trivial_problem).frontier_states =
        ((fifoInit trivial_problem).frontier.map Node.state).toFinset ∧
      Disjoint (fifoInit trivial_problem).frontier_states
        (fifoInit trivial_problem).explored) ∧
    Multiset.Nodup {trivial_problem.initial} ∧
    fifoStep true trivial_problem (fifoInit trivial_problem) ≠ .keyError) :=
  C9_fifo_frontier_invariants true trivial_problem (fifoInit trivial_problem)
    {trivial_problem.initial} FifoReach.init

/-- Witness for `C10_amended_pop_pair_present`: at the initial UCS
configuration of `trivial_problem` the popped pair is present and no
`KeyError` occurs. -/
theorem C10_amended_witness :
    (∀ node fr1,
      heappop (pqInit trivial_problem).frontier = some (node, fr1) →
      (node.state, node.cost) ∈ (pqInit trivial_problem).frontier_states) ∧
    pqStep trivial_problem (ucsCost trivial_problem) (pqInit trivial_problem) ≠
      .keyError :=
  C10_amended_pop_pair_present trivial_problem (ucsCost trivial_problem)
    trivial_pq_nodup (pqInit trivial_problem) PqReach.init

/-- **C3.**  The claim states that `n.child_node(problem, a)` returns, without
error, a node whose cost comes from `problem.path_cost` applied to `n`'s
accumulated cost and whose parent is `n`, and that `n.expand(problem)` returns
one such child per action.  The code disagrees: `child_node` reads
`self.path_cost`, but `__init__` stores the accumulated cost under the
attribute `cost`, so every call raises `AttributeError` (moreover the
`Node(...)` call would pass `self` and `action` into the `action` and
`parent` slots).  First conjunct: `child_node` raises on every node, problem
and action; remaining conjuncts evaluate the failing input from the claim,
the root node of the Romania problem with its first applicable action. -/
theorem C3_child_node_always_raises :
    (∀ {β : Type} (self : Node β) (problem : Problem β) (action : β),
        self.child_node problem action =
          .error "AttributeError: Node object has no attribute path_cost") ∧
    Node.child_node (Node.mk "Arad" 0 none none) romania_problem "Zerind" =
      .error "AttributeError: Node object has no attribute path_cost" ∧
    Node.expand (Node.mk "Arad" 0 none none) romania_problem =
      .error "AttributeError: Node object has no attribute path_cost" := by
  refine ⟨fun self problem action => rfl, rfl, rfl⟩

/-- **C1.**  The claim states that in `a_star_search` the priority of every
generated node equals its accumulated path cost plus the heuristic at its own
state, with no contribution from ancestors' heuristic values.  Counter-run on
the line instance `A --1--> B --1--> G` with exact integer straight-line
distances (`h(B) = 5`, `h(G) = 0`): the node returned by the search (the
generated node for the goal state `G`) carries priority 7
(`= 1 + h(B) + 1 + h(G)`), while its accumulated path cost is 2 and the
heuristic at `G` is 0, so its priority differs from
`path cost + heuristic = 2`: the ancestor `B`'s heuristic accumulated. -/
theorem C1_astar_priority_accumulates_ancestor_heuristics :
    outcomeStates (a_star_search line_problem line_locations 10) = ["A", "B", "G"] ∧
    outcomeCost (a_star_search line_problem line_locations 10) = 7 ∧
    routeWeight line_graph (outcomeStates (a_star_search line_problem line_locations 10)) = 2 ∧
    euclidean_distance (line_locations "B") (line_locations "G") = 5 ∧
    euclidean_distance (line_locations "G") (line_locations "G") = 0 ∧
    outcomeCost (a_star_search line_problem line_locations 10) ≠
      routeWeight line_graph (outcomeStates (a_star_search line_problem line_locations 10)) +
        euclidean_distance (line_locations "G") (line_locations "G") := by
  refine ⟨by decide, by decide, by decide, by decide, by decide, by decide⟩

/-- **C2.**  The claim states that with an admissible, consistent heuristic
`a_star_search` returns a path of the same total path cost as
`uniform_cost_search`.  Counter-run on the diamond instance: the heuristic
(exact integer straight-line distances) is admissible (first block: each
`h(s)` is bounded by the weight of the cheapest route from `s` to the goal)
and consistent (second block: `h(u) ≤ w(u,v) + h(v)` on every edge, and
`h(G) = 0`), yet UCS returns the route `A-B-G` of total weight 4 while A*
returns `A-C-G` of total weight 5, because the accumulated heuristic of the
intermediate state `B` (`h(B) = 2`) distorts the priority of the optimal
route's goal node. -/
theorem C2_astar_loses_optimality_against_ucs :
    (diamond_h "A" = 4 ∧ diamond_h "B" = 2 ∧ diamond_h "C" = 0 ∧ diamond_h "G" = 0) ∧
    (diamond_h "A" ≤ routeWeight diamond_graph ["A", "B", "G"] ∧
      diamond_h "B" ≤ routeWeight diamond_graph ["B", "G"] ∧
      diamond_h "C" ≤ routeWeight diamond_graph ["C", "G"]) ∧
    (diamond_h "A" ≤ assocLookup (diamond_graph "A") "B" + diamond_h "B" ∧
      diamond_h "A" ≤ assocLookup (diamond_graph "A") "C" + diamond_h "C" ∧
      diamond_h "B" ≤ assocLookup (diamond_graph "B") "G" + diamond_h "G" ∧
      diamond_h "C" ≤ assocLookup (diamond_graph "C") "G" + diamond_h "G") ∧
    outcomeStates (uniform_cost_search diamond_problem 10) = ["A", "B", "G"] ∧
    outcomeStates (a_star_search diamond_problem diamond_locations 10) = ["A", "C", "G"] ∧
    routeWeight diamond_graph (outcomeStates (uniform_cost_search diamond_problem 10)) = 4 ∧
    routeWeight diamond_graph
      (outcomeStates (a_star_search diamond_problem diamond_locations 10)) = 5 ∧
    routeWeight diamond_graph
        (outcomeStates (a_star_search diamond_problem diamond_locations 10)) ≠
      routeWeight diamond_graph (outcomeStates (uniform_cost_search diamond_problem 10)) := by
  refine ⟨by decide, by decide, by decide, by decide, by decide, by decide, by decide, by decide⟩

/-- **C6.**  On the notebook's Romania instance,
`breadth_first_graph_search` returns the route Arad, Sibiu, Fagaras,
Bucharest, and `uniform_cost_search` returns the route Arad, Sibiu, Rimnicu,
Pitesti, Bucharest with accumulated cost 418, exactly as the claim states. -/
theorem C6_romania_bfs_and_ucs_routes :
    outcomeStates (breadth_first_graph_search romania_problem 60) =
      ["Arad", "Sibiu", "Fagaras", "Bucharest"] ∧
    outcomeStates (uniform_cost_search romania_problem 80) =
      ["Arad", "Sibiu", "Rimnicu", "Pitesti", "Bucharest"] ∧
    outcomeCost (uniform_cost_search romania_problem 80) = 418 := by
  refine ⟨by decide, by decide, by decide⟩

/-- **C4** (counterexample).  The claim states that a generated neighbor
whose exact `(state, cost)` pair is already in `frontier_states` is not
pushed.  Counter-run of UCS on `dup_graph`: after two iterations the pair
`(X, 2)` is in `frontier_states` and the heap holds exactly one node keyed
`(X, 2)`; the third iteration (which generates `X` again from `C` with the
same cost 2) pushes a second node keyed `(X, 2)` anyway, because the
membership test compares the bare state `X` with `(state, cost)` tuples. -/
theorem C4_counterexample_duplicate_pair_pushed :
    ("X", 2) ∈ optFS (pqIter dup_problem (ucsCost dup_problem) 2 (pqInit dup_problem)) ∧
    ((optFrontier (pqIter dup_problem (ucsCost dup_problem) 2 (pqInit dup_problem))).countP
      fun n => decide (n.pairKey = ("X", 2))) = 1 ∧
    ((optFrontier (pqIter dup_problem (ucsCost dup_problem) 3 (pqInit dup_problem))).countP
      fun n => decide (n.pairKey = ("X", 2))) = 2 := by
  refine ⟨by decide, by decide, by decide⟩

/-- **C4** (amended).  In the UCS/A* neighbor loop the `frontier_states`
membership test never causes a skip: the body pushes the neighbor node and
records its `(state, cost)` pair exactly when the neighbor state is not in
`explored` — membership of the pair in `frontier_states` is irrelevant,
because the test compares a bare state with `(state, cost)` tuples.  This
characterises the per-neighbor body `pqConsider` folded by both
`uniform_cost_search` and `a_star_search`. -/
theorem C4_amended_push_iff_unexplored [DecidableEq α] (costF : Node α → α → ℤ)
    (node : Node α) (explored : Finset α)
    (acc : List (Node α) × Finset (α × ℤ) × List (α × ℤ)) (neighbor : α) :
    pqConsider costF node explored acc neighbor =
      if neighbor ∉ explored then
        (heappush acc.1 (Node.mk neighbor (costF node neighbor) (some neighbor) (some node)),
          insert (neighbor, costF node neighbor) acc.2.1,
          acc.2.2 ++ [(neighbor, costF node neighbor)])
      else acc := by
  by_cases h : neighbor ∈ explored
  · simp [pqConsider, h]
  · simp [pqConsider, h, stateMemPairSet_false]

/-- **C10** (counterexample).  The claim states that the pair of a popped
node is always present in `frontier_states`, so the `remove` never raises,
even when two frontier nodes share a state with equal cost.  Counter-run of
UCS on `dup_graph`: after four iterations the heap still holds a node keyed
`(X, 2)` but `frontier_states` no longer contains `(X, 2)` (it was removed
when the first such node was popped), and the run raises `KeyError`. -/
theorem C10_counterexample_keyerror :
    ((optFrontier (pqIter dup_problem (ucsCost dup_problem) 4 (pqInit dup_problem))).countP
      fun n => decide (n.pairKey = ("X", 2))) = 1 ∧
    ("X", 2) ∉ optFS (pqIter dup_problem (ucsCost dup_problem) 4 (pqInit dup_problem)) ∧
    outcomeIsKeyError (uniform_cost_search dup_problem 10) = true := by
  refine ⟨by decide, by decide, by decide⟩

/-- **C7** (counterexample).  The claim states that on every finite problem
with non-negative step costs each search returns either a node or the
not-found value.  On `dup_problem` — finite (the universe `dup_states` is
closed under the successor relation) and with non-negative edge weights —
`uniform_cost_search` terminates but returns neither: it raises `KeyError`. -/
theorem C7_counterexample_ucs_keyerror :
    "A" ∈ dup_states ∧
    (dup_states.all fun s => (dup_graph s).all fun p => decide (p.1 ∈ dup_states)) = true ∧
    (dup_states.all fun s => (dup_graph s).all fun p => decide (0 ≤ p.2)) = true ∧
    (uniform_cost_search dup_problem 6).isSome = true ∧
    outcomeIsFound (uniform_cost_search dup_problem 6) = false ∧
    outcomeIsNoPath (uniform_cost_search dup_problem 6) = false := by
  refine ⟨by decide, by decide, by decide, by decide, by decide, by decide⟩

/-- **C8** (counterexample).  The claim states that on every finite problem
whose goal is unreachable, each search returns the explicit not-found value.
On `dup_problem_nogoal` — finite, and with no state of the closed universe
passing the goal test — `uniform_cost_search` raises `KeyError` instead of
returning the not-found value. -/
theorem C8_counterexample_ucs_keyerror_without_goal :
    "A" ∈ dup_states ∧
    (dup_states.all fun s => (dup_graph s).all fun p => decide (p.1 ∈ dup_states)) = true ∧
    (dup_states.all fun s => !dup_problem_nogoal.goal_test s) = true ∧
    outcomeIsKeyError (uniform_cost_search dup_problem_nogoal 10) = true ∧
    outcomeIsNoPath (uniform_cost_search dup_problem_nogoal 10) = false := by
  refine ⟨by decide, by decide, by decide, by decide, by decide⟩

end SearchSpec
